import Mathlib

/-!
Verification development for the `cfg` configuration-merge library.

The Lean definitions below are a shallow embedding of the Go source file
`cfg.go`: the line parser (`parse`), the type-coercion layer (`setField`
with its helpers, including `FileSize.Unmarshal`), the structural walk and
default application (`setFields`, split into its loop `pass1` and the final
defaults loop `pass2`), and the merge orchestrator (`mergeConfigsInto`).

Modelling conventions:
  - Machine integers are `Nat`/`Int` with explicit `% 2 ^ w` where Go
    overflow or truncation matters.
  - Go functions that can panic are modelled with an explicit `panic`
    outcome (`GoOut.panic`); fallible functions return errors as values.
  - The filesystem consumed by the merge orchestrator is a function from
    `(path, name)` to an open result, since the library treats file opening
    purely as a byte-stream supplier outside the library.
  - The target record is modelled as a flat list of fields (`GoField`).
    Nested records are flattened by the walker into the same flat key
    namespace, so a single level carries all the claim-relevant logic; the
    spec makes cross-level key collisions the caller's responsibility.
  - Field kinds are the kinds enumerated by the coercion switch in
    `setField` (string, int8/int16/int/int64, time.Duration, the four
    unsigned kinds, bool) plus the `FileSize` custom type used by the
    repository.  Float fields and further custom types are not needed by
    any statement below.
  - Go standard-library parsers (`strconv.ParseInt`, `strconv.ParseUint`,
    `strconv.ParseBool`, `time.ParseDuration`) are collaborators outside the repository;
    they are modelled from their documented behaviour with exact integer
    arithmetic.
-/

namespace Cfg

/-- Go `unicode.IsSpace`: the Unicode White_Space property (Latin-1 range
plus the dedicated space code points). -/
def goIsSpace (c : Char) : Bool :=
  c = ' ' || c = '\t' || c = '\n' || c = '\x0b' || c = '\x0c' || c = '\r' ||
  c = '\u0085' || c = '\u00A0' || c = '\u1680' ||
  ('\u2000' ≤ c && c ≤ '\u200A') || c = '\u2028' || c = '\u2029' ||
  c = '\u202F' || c = '\u205F' || c = '\u3000'

/-- Trim leading characters satisfying Go `unicode.IsSpace`
(`bytes.TrimLeftFunc(_, unicode.IsSpace)`). -/
def trimLeftList (l : List Char) : List Char := l.dropWhile goIsSpace

/-- Trim trailing characters satisfying Go `unicode.IsSpace`
(`bytes.TrimRightFunc(_, unicode.IsSpace)`). -/
def trimRightList (l : List Char) : List Char :=
  (l.reverse.dropWhile goIsSpace).reverse

/-- Go `bytes.TrimSpace` / `strings.TrimSpace`. -/
def trimSpaceList (l : List Char) : List Char := trimRightList (trimLeftList l)

/-- Go `bytes.TrimRight(l, cutset)`: drop trailing characters that occur in
`cut`. -/
def trimRightCharsList (l : List Char) (cut : List Char) : List Char :=
  (l.reverse.dropWhile (fun c => cut.contains c)).reverse

/-- Split a line at the first `'='` (Go `bytes.SplitN(line, "=", 2)`):
`none` when the line holds no `'='`, otherwise the parts before and after
the first `'='`. -/
def splitEq (l : List Char) : Option (List Char × List Char) :=
  match l.dropWhile (fun c => c ≠ '=') with
  | [] => none
  | _ :: after => some (l.takeWhile (fun c => c ≠ '='), after)

/-- Split a character stream into scanner tokens at `'\n'`
(Go `bufio.ScanLines`, before the carriage-return drop). -/
def splitLinesList : List Char → List (List Char)
  | [] => [[]]
  | c :: rest =>
    if c = '\n' then [] :: splitLinesList rest
    else
      match splitLinesList rest with
      | [] => [[c]]
      | l :: ls => (c :: l) :: ls

/-- Go `bufio.ScanLines` drops one `'\r'` at the end of each token. -/
def dropCR (l : List Char) : List Char :=
  match l.getLast? with
  | some c => if c = '\r' then l.dropLast else l
  | none => l

/-- The scanner tokens of a byte stream: split at `'\n'`, then drop a
trailing `'\r'` per token.  A trailing empty token (stream ending in a
newline, or an empty stream) is harmless because the parser skips empty
lines. -/
def scanLines (s : String) : List (List Char) :=
  (splitLinesList s.toList).map dropCR

/-- Association-list lookup by key (first match), the model of a Go map
read `m[k]`. -/
def lookupKV {α : Type} : List (String × α) → String → Option α
  | [], _ => none
  | (k, v) :: rest, key => if k = key then some v else lookupKV rest key

/-- Go map deletion `delete(m, k)`: remove every binding of `k`. -/
def keyErase {α : Type} : List (String × α) → String → List (String × α)
  | [], _ => []
  | p :: rest, k =>
    if p.1 = k then keyErase rest k else p :: keyErase rest k

/-- Go map assignment `m[k] = v`: any existing binding of `k` is replaced. -/
def upsert {α : Type} (m : List (String × α)) (k : String) (v : α) :
    List (String × α) :=
  keyErase m k ++ [(k, v)]

/-- One iteration of the scanner loop in `parse` (cfg.go:207-229): left-trim
the line, skip it when empty, a comment, or without `'='`; otherwise the key
is the part before the first `'='` with trailing whitespace trimmed and the
value is the part after it, trimmed of trailing `"\r\n"` characters and of
surrounding whitespace. -/
def parseLine (line : List Char) : Option (String × String) :=
  let l := trimLeftList line
  match l with
  | [] => none
  | c :: _ =>
    if c = '#' then none
    else
      match splitEq l with
      | none => none
      | some (k, v) =>
        some ((trimRightList k).asString,
          (trimSpaceList (trimRightCharsList v ['\r', '\n'])).asString)

/-- Model of `parse` (cfg.go:203-235): fold the per-line table entries over the
scanner tokens; a later occurrence of a key overwrites an earlier one. -/
def parse (s : String) : List (String × String) :=
  (scanLines s).foldl
    (fun m line =>
      match parseLine line with
      | some (k, v) => upsert m k v
      | none => m)
    []

/-- The value stored in a settable field of the target record. -/
inductive GoVal : Type
  | str (s : String)
  | int (n : Int)
  | uint (n : Nat)
  | bool (b : Bool)
  | fileSize (n : Nat)
deriving DecidableEq, Repr

/-- The static kinds dispatched on by the coercion switch in `setField`
(cfg.go:318-369), plus the `FileSize` custom type (checked first via the
`CustomType` interface, cfg.go:305-316).  `duration` is the one signed
64-bit kind whose concrete type is exactly `time.Duration`. -/
inductive GoKind : Type
  | str
  | i8
  | i16
  | iint
  | i64
  | duration
  | u8
  | u16
  | u32
  | u64
  | bool
  | fileSize
deriving DecidableEq, Repr

/-- Errors surfaced by the library (payloads keep the data the Go error
messages interpolate). -/
inductive GoErr : Type
  | fileNotFound (path name : String)
  | ioErr
  | parseIntErr (s : String)
  | parseUintErr (s : String)
  | parseBoolErr (s : String)
  | setFieldErr (key value : String)
  | defaultErr (key value : String)
deriving DecidableEq, Repr

/-- Outcome of running a piece of Go code: a value, a returned error, or a
runtime panic. -/
inductive GoOut (α : Type) : Type
  | ok (a : α)
  | err (e : GoErr)
  | panic
deriving DecidableEq, Repr

/-- Whether an outcome is a normally returned value. -/
def GoOut.isOk {α : Type} : GoOut α → Bool
  | .ok _ => true
  | _ => false

/-- Go `strconv.ParseUint(s, 10, 64)`: decimal digits only, no sign, value
within `uint64` range. -/
def goParseUint (s : String) : Except GoErr Nat :=
  let cs := s.toList
  if cs.isEmpty then .error (.parseUintErr s)
  else if cs.all Char.isDigit then
    let n := cs.foldl (fun a c => a * 10 + (c.toNat - '0'.toNat)) 0
    if n > 2 ^ 64 - 1 then .error (.parseUintErr s) else .ok n
  else .error (.parseUintErr s)

/-- Go `strconv.ParseInt(s, 10, 64)`: optional sign, decimal digits, value
within `int64` range. -/
def goParseInt (s : String) : Except GoErr Int :=
  let cs := s.toList
  let signed : Bool × List Char :=
    match cs with
    | '-' :: rest => (true, rest)
    | '+' :: rest => (false, rest)
    | _ => (false, cs)
  let neg := signed.1
  let ds := signed.2
  if ds.isEmpty then .error (.parseIntErr s)
  else if ds.all Char.isDigit then
    let n := ds.foldl (fun a c => a * 10 + (c.toNat - '0'.toNat)) 0
    if neg then
      if n > 2 ^ 63 then .error (.parseIntErr s) else .ok (-(n : Int))
    else
      if n > 2 ^ 63 - 1 then .error (.parseIntErr s) else .ok (n : Int)
  else .error (.parseIntErr s)

/-- Go `strconv.ParseBool`: the twelve standard boolean literals. -/
def goParseBool (s : String) : Except GoErr Bool :=
  if s = "1" || s = "t" || s = "T" || s = "TRUE" || s = "true" || s = "True"
  then .ok true
  else if s = "0" || s = "f" || s = "F" || s = "FALSE" || s = "false" ||
      s = "False"
  then .ok false
  else .error (.parseBoolErr s)

/-- Nanoseconds per unit, Go `time.unitMap` for the units accepted by
`time.ParseDuration`. -/
def durUnit : List Char → Option Nat
  | ['n', 's'] => some 1
  | ['u', 's'] => some 1000
  | ['µ', 's'] => some 1000
  | ['μ', 's'] => some 1000
  | ['m', 's'] => some 1000000
  | ['s'] => some 1000000000
  | ['m'] => some 60000000000
  | ['h'] => some 3600000000000
  | _ => none

/-- Go `time.leadingInt`: consume leading decimal digits into `x`, failing
(`none`) on overflow past `2 ^ 63`. -/
def durLeadingInt : List Char → Nat → Option (Nat × List Char)
  | [], x => some (x, [])
  | c :: rest, x =>
    if c.isDigit then
      if x > 2 ^ 63 / 10 then none
      else
        let y := x * 10 + (c.toNat - '0'.toNat)
        if y > 2 ^ 63 then none else durLeadingInt rest y
    else some (x, c :: rest)

/-- Go `time.leadingFraction`: consume leading decimal digits as a
fraction, tracking the scale and silently discarding digits once the
accumulator would overflow. -/
def durLeadingFraction : List Char → Nat → Nat → Bool → Nat × Nat × List Char
  | [], x, scale, _ => (x, scale, [])
  | c :: rest, x, scale, ovf =>
    if c.isDigit then
      if ovf then durLeadingFraction rest x scale ovf
      else if x > (2 ^ 63 - 1) / 10 then durLeadingFraction rest x scale true
      else
        let y := x * 10 + (c.toNat - '0'.toNat)
        if y > 2 ^ 63 then durLeadingFraction rest x scale true
        else durLeadingFraction rest y (scale * 10) false
    else (x, scale, c :: rest)

/-- One `[0-9]*(\.[0-9]*)?unit` group of a Go duration expression: the
group's value in nanoseconds and the remaining input, or `none` on a
malformed group or overflow.  The fractional contribution
`uint64(float64(f) * (float64(unit) / scale))` is modelled as the exact
floor `f * unit / scale`. -/
def durStep (s : List Char) : Option (Nat × List Char) :=
  match s with
  | [] => none
  | c0 :: _ =>
    if !(c0 = '.' || c0.isDigit) then none
    else
      match durLeadingInt s 0 with
      | none => none
      | some (v, s1) =>
        let pre : Bool := s1.length ≠ s.length
        let fr : Nat × Nat × List Char × Bool :=
          match s1 with
          | '.' :: s1' =>
            let r := durLeadingFraction s1' 0 1 false
            (r.1, r.2.1, r.2.2, decide (r.2.2.length ≠ s1'.length))
          | _ => (0, 1, s1, false)
        let f := fr.1
        let scale := fr.2.1
        let s2 := fr.2.2.1
        let post := fr.2.2.2
        if !pre && !post then none
        else
          let u := s2.takeWhile (fun c => !(c = '.' || c.isDigit))
          let s3 := s2.dropWhile (fun c => !(c = '.' || c.isDigit))
          if u.isEmpty then none
          else
            match durUnit u with
            | none => none
            | some unit =>
              if v > 2 ^ 63 / unit then none
              else
                let v1 := v * unit
                if f > 0 then
                  let v2 := v1 + f * unit / scale
                  if v2 > 2 ^ 63 then none else some (v2, s3)
                else some (v1, s3)

/-- The accumulation loop of `time.ParseDuration`; `fuel` bounds the number
of groups (each group consumes at least its unit character, so
`fuel = s.length` always suffices). -/
def durLoop : Nat → List Char → Nat → Option Nat
  | _, [], d => some d
  | 0, _ :: _, _ => none
  | fuel + 1, s, d =>
    match durStep s with
    | none => none
    | some (v, s3) =>
      let d' := d + v
      if d' > 2 ^ 63 then none else durLoop fuel s3 d'

/-- Go `time.ParseDuration`: `[-+]?([0-9]*(\.[0-9]*)?[a-z]+)+` with the
special case `"0"`, yielding the signed tick (nanosecond) count. -/
def goParseDuration (s : String) : Option Int :=
  let cs := s.toList
  let signed : Bool × List Char :=
    match cs with
    | '-' :: rest => (true, rest)
    | '+' :: rest => (false, rest)
    | _ => (false, cs)
  let neg := signed.1
  let cs1 := signed.2
  if cs1 = ['0'] then some 0
  else if cs1.isEmpty then none
  else
    match durLoop cs1.length cs1 0 with
    | none => none
    | some d =>
      if neg then some (-(d : Int))
      else if d > 2 ^ 63 - 1 then none
      else some (d : Int)

/-- The `FileSize` custom type (cfg.go:49). -/
def FileSize : Type := Nat

/-- Model of `FileSize.Unmarshal` (cfg.go:84-124).  `prev` is the value the receiver
holds before the call.  Two behaviours of the Go body are modelled exactly:
on the empty string the assignment `fs = &size` rebinds the local pointer
variable only, so the caller's value stays `prev`; and the indexing
`value[last]` / `value[last-1]` panics when the lower-cased, space-trimmed
input is empty or a single `'b'`.  The final store multiplies in `uint64`,
hence the `% 2 ^ 64`. -/
def FileSize.Unmarshal (prev : Nat) (value : String) : GoOut Nat :=
  if value = "" then .ok prev
  else
    let cs := trimSpaceList (value.toList.map Char.toLower)
    let sized : Option (Nat × List Char) :=
      if cs.getLast? = some 'b' then
        match cs.dropLast.getLast? with
        | none => none
        | some 't' => some (2 ^ 40, trimSpaceList cs.dropLast.dropLast)
        | some 'g' => some (2 ^ 30, trimSpaceList cs.dropLast.dropLast)
        | some 'm' => some (2 ^ 20, trimSpaceList cs.dropLast.dropLast)
        | some 'k' => some (2 ^ 10, trimSpaceList cs.dropLast.dropLast)
        | some _ => some (1, trimSpaceList cs.dropLast)
      else if cs.isEmpty then none
      else some (1, cs)
    match sized with
    | none => .panic
    | some (mp, cs') =>
      match goParseUint cs'.asString with
      | .ok n => .ok (n * mp % 2 ^ 64)
      | .error e => .err e

/-- Two's-complement truncation of a parsed `int64` to a signed field of
width `w` (`reflect.Value.SetInt` stores the low bits). -/
def wrapInt (w : Nat) (n : Int) : Int :=
  (n + 2 ^ (w - 1)) % (2 ^ w : Nat) - 2 ^ (w - 1)

/-- Truncation of a parsed `uint64` to an unsigned field of width `w`
(`reflect.Value.SetUint` stores the low bits). -/
def wrapUint (w : Nat) (n : Nat) : Nat := n % 2 ^ w

/-- The signed-integer case of the coercion switch (cfg.go:321-335): try
`time.ParseDuration` first; on success, `field.Set(reflect.ValueOf(d))`
succeeds only when the field's type is exactly `time.Duration` and panics
otherwise (a `time.Duration` value is not assignable to any other signed
kind); on failure, fall back to `strconv.ParseInt` and store the (width
truncated) value. -/
def setIntField (isDur : Bool) (w : Nat) (v : String) : GoOut GoVal :=
  match goParseDuration v with
  | some d => if isDur then .ok (.int d) else .panic
  | none =>
    match goParseInt v with
    | .ok n => .ok (.int (wrapInt w n))
    | .error e => .err e

/-- The unsigned-integer case of the coercion switch (cfg.go:336-343). -/
def setUintField (w : Nat) (v : String) : GoOut GoVal :=
  match goParseUint v with
  | .ok n => .ok (.uint (wrapUint w n))
  | .error e => .err e

/-- The boolean case of the coercion switch (cfg.go:344-360): exactly the
tokens `yes`/`YES`/`Yes` map to true and `no`/`NO`/`No` map to false before
falling back to `strconv.ParseBool`. -/
def setBoolField (v : String) : GoOut GoVal :=
  if v = "yes" || v = "YES" || v = "Yes" then .ok (.bool true)
  else if v = "no" || v = "NO" || v = "No" then .ok (.bool false)
  else
    match goParseBool v with
    | .ok b => .ok (.bool b)
    | .error e => .err e

/-- Model of `setField` (cfg.go:304-372): custom-type dispatch first (`FileSize`),
then the kind switch.  `cur` is the value the field holds before the call
(only the `FileSize` case can read it, through the empty-string bug). -/
def setField (k : GoKind) (cur : GoVal) (v : String) : GoOut GoVal :=
  match k with
  | .fileSize =>
    let prev : Nat :=
      match cur with
      | .fileSize n => n
      | _ => 0
    match FileSize.Unmarshal prev v with
    | .ok n => .ok (.fileSize n)
    | .err e => .err e
    | .panic => .panic
  | .str => .ok (.str v)
  | .i8 => setIntField false 8 v
  | .i16 => setIntField false 16 v
  | .iint => setIntField false 64 v
  | .i64 => setIntField false 64 v
  | .duration => setIntField true 64 v
  | .u8 => setUintField 8 v
  | .u16 => setUintField 16 v
  | .u32 => setUintField 32 v
  | .u64 => setUintField 64 v
  | .bool => setBoolField v

/-- One settable field of the (flattened) target record: its Go field
name, its `cfg` tag (`""` when absent), its `default` tag (`""` when
absent), its static kind, whether `reflect.Value.CanSet` holds for it, and
its pre-merge value. -/
structure GoField : Type where
  name : String
  tag : String
  defTag : String
  kind : GoKind
  settable : Bool
  init : GoVal
deriving DecidableEq, Repr

/-- The configuration key a field resolves to (cfg.go:255-264): the `cfg`
tag, or the field name when the tag is absent. -/
def resolvedKey (f : GoField) : String :=
  if f.tag = "" then f.name else f.tag

/-- A field is visited by the walk when it is settable and its tag is not
the exclusion sentinel `"-"`. -/
def isWalked (f : GoField) : Bool :=
  f.settable && !(f.tag = "-")

/-- An entry of the pending-defaults map (the Go `Default` value plus the
location data its `reflect.Value` field carries: the field's index, kind
and current value). -/
structure DefaultEntry : Type where
  value : String
  idx : Nat
  kind : GoKind
  cur : GoVal
deriving DecidableEq, Repr

/-- Prepend a field value to the value list of a successful recursive walk,
propagating failure. -/
def consVal (v : GoVal) :
    GoOut (List GoVal × List (String × DefaultEntry)) →
    GoOut (List GoVal × List (String × DefaultEntry))
  | .ok (vs, ds) => .ok (v :: vs, ds)
  | .err e => .err e
  | .panic => .panic

/-- The field loop of `setFields` (cfg.go:246-293) over the flattened
record: `i` is the index of the first field of `fields` in the record and
`ds` the pending-defaults map accumulated so far.  For each settable,
non-excluded field: register its default (if declared), then, when the
table holds its key, coerce; a coercion error is fatal unless a default is
declared, and a coercion success removes the key from the pending map. -/
def pass1 (kv : List (String × String)) :
    List GoField → Nat → List (String × DefaultEntry) →
    GoOut (List GoVal × List (String × DefaultEntry))
  | [], _, ds => .ok ([], ds)
  | f :: rest, i, ds =>
    if f.settable then
      if f.tag = "-" then consVal f.init (pass1 kv rest (i + 1) ds)
      else
        let key := resolvedKey f
        let ds1 :=
          if f.defTag = "" then ds
          else upsert ds key ⟨f.defTag, i, f.kind, f.init⟩
        match lookupKV kv key with
        | some v =>
          match setField f.kind f.init v with
          | .ok w => consVal w (pass1 kv rest (i + 1) (keyErase ds1 key))
          | .err _ =>
            if f.defTag = "" then .err (.setFieldErr key v)
            else consVal f.init (pass1 kv rest (i + 1) ds1)
          | .panic => .panic
        | none => consVal f.init (pass1 kv rest (i + 1) ds1)
    else consVal f.init (pass1 kv rest (i + 1) ds)

/-- The defaults loop of `setFields` (cfg.go:294-299): coerce each pending
default into its field; any failure is fatal.  At this point a pending
field necessarily still holds its pre-merge value, recorded in the entry's
`cur`. -/
def pass2 : List (String × DefaultEntry) → List GoVal → GoOut (List GoVal)
  | [], vals => .ok vals
  | (k, d) :: rest, vals =>
    match setField d.kind d.cur d.value with
    | .ok w => pass2 rest (vals.set d.idx w)
    | .err _ => .err (.defaultErr k d.value)
    | .panic => .panic

/-- Model of `setFields` (cfg.go:237-302) on the flattened record: run the field
loop, then the defaults loop; return the final field values together with
the audit map of applied defaults. -/
def setFields (kv : List (String × String)) (fields : List GoField) :
    GoOut (List GoVal × List (String × DefaultEntry)) :=
  match pass1 kv fields 0 [] with
  | .ok (vals, ds) =>
    match pass2 ds vals with
    | .ok vals' => .ok (vals', ds)
    | .err e => .err e
    | .panic => .panic
  | .err e => .err e
  | .panic => .panic

/-- One config source (the `File` struct, cfg.go:30-34). -/
structure File : Type where
  name : String
  path : String
  required : Bool
deriving DecidableEq, Repr

/-- Result of opening one source: its content, a does-not-exist error, or
any other I/O error. -/
inductive OpenRes : Type
  | content (s : String)
  | notExist
  | otherErr
deriving DecidableEq, Repr

/-- The source-folding loop of `MergeConfigsInto` (cfg.go:142-163): open
each source in order; skip a missing non-required source; abort on a
missing required source or any other open failure; otherwise parse it and
fold its table into the accumulated table, later entries overwriting
earlier ones. -/
def accumKVs (fsys : String → String → OpenRes) :
    List File → List (String × String) → Except GoErr (List (String × String))
  | [], kvs => .ok kvs
  | f :: rest, kvs =>
    match fsys f.path f.name with
    | .content c =>
      accumKVs fsys rest
        ((parse c).foldl (fun m p => upsert m p.1 p.2) kvs)
    | .notExist =>
      if f.required then .error (.fileNotFound f.path f.name)
      else accumKVs fsys rest kvs
    | .otherErr => .error .ioErr

/-- Model of `MergeConfigsInto` (cfg.go:139-173) against the filesystem `fsys`:
fold all sources into one table, then run `setFields`; return the final
field values and the audit map of applied defaults. -/
def mergeConfigsInto (fsys : String → String → OpenRes) (files : List File)
    (fields : List GoField) :
    GoOut (List GoVal × List (String × DefaultEntry)) :=
  match accumKVs fsys files [] with
  | .ok kvs => setFields kvs fields
  | .error e => .err e

/-- Reference line rule, following the spec's words (§4.1): the line is
stripped of leading whitespace; a then-empty line, or a line whose first
character is `'#'`, or a line without `'='` contributes nothing; otherwise
the line is split on the first `'='` only, the key is the left part with
trailing whitespace trimmed, and the value is the right part with
surrounding whitespace and trailing carriage-return/newline trimmed. -/
def specLineEntry (line : List Char) : Option (String × String) :=
  let l := line.dropWhile goIsSpace
  if l.isEmpty then none
  else if l.head? = some '#' then none
  else
    match splitEq l with
    | none => none
    | some (k, v) =>
      some ((trimRightList k).asString,
        (trimRightCharsList (trimSpaceList v) ['\r', '\n']).asString)

/-- Reference table, following the spec's words (§4.1): process the lines
in order, fold each contributed entry into the table, last occurrence of a
key winning. -/
def specTable (s : String) : List (String × String) :=
  (scanLines s).foldl
    (fun m line =>
      match specLineEntry line with
      | some (k, v) => upsert m k v
      | none => m)
    []

/-- Value of an outcome, with a fallback for non-`ok` outcomes. -/
def GoOut.getD {α : Type} (o : GoOut α) (d : α) : α :=
  match o with
  | .ok a => a
  | _ => d

/-- The value a field holds after the field loop of `setFields`, or the
fatal outcome the loop stops with at this field (mirrors one iteration of
cfg.go:246-293). -/
def fieldOutcome (kv : List (String × String)) (f : GoField) : GoOut GoVal :=
  if f.settable then
    if f.tag = "-" then .ok f.init
    else
      match lookupKV kv (resolvedKey f) with
      | some v =>
        match setField f.kind f.init v with
        | .ok w => .ok w
        | .err _ =>
          if f.defTag = "" then .err (.setFieldErr (resolvedKey f) v)
          else .ok f.init
        | .panic => .panic
      | none => .ok f.init
  else .ok f.init

/-- Whether a field's declared default is still pending after the field
loop: the field is walked, declares a default, and was not successfully
set from the table. -/
def fieldPending (kv : List (String × String)) (f : GoField) : Bool :=
  isWalked f && !(f.defTag = "") &&
    (match lookupKV kv (resolvedKey f) with
     | some v => !(setField f.kind f.init v).isOk
     | none => true)

/-- The pending-defaults map produced by the field loop on distinct keys:
one entry per pending field, in field order. -/
def pendingEntries (kv : List (String × String)) :
    List GoField → Nat → List (String × DefaultEntry)
  | [], _ => []
  | f :: rest, i =>
    (if fieldPending kv f then [(resolvedKey f, ⟨f.defTag, i, f.kind, f.init⟩)]
     else []) ++ pendingEntries kv rest (i + 1)

/-- The resolved keys of the walked (settable, non-excluded) fields. -/
def walkedKeys (fields : List GoField) : List String :=
  (fields.filter (fun f => isWalked f)).map resolvedKey

/-- The key column of an association list. -/
def keysOf {α : Type} (m : List (String × α)) : List String :=
  m.map (fun p => p.1)

/-- The tables of the sources that are actually opened and parsed by a
merge (missing non-required sources contribute nothing). -/
def openTables (fsys : String → String → OpenRes) (files : List File) :
    List (List (String × String)) :=
  files.filterMap (fun f =>
    match fsys f.path f.name with
    | .content c => some (parse c)
    | _ => none)

/-- The values the opened sources give to key `k`, in declaration order. -/
def sourceValues (fsys : String → String → OpenRes) (files : List File)
    (k : String) : List String :=
  (openTables fsys files).filterMap (fun t => lookupKV t k)

/-- The signed-integer kinds handled by cfg.go:321 (`reflect.Int8`,
`reflect.Int16`, `reflect.Int`, `reflect.Int64`; `time.Duration` has kind
`reflect.Int64`). -/
def isSignedIntKind (k : GoKind) : Prop :=
  k = .i8 ∨ k = .i16 ∨ k = .iint ∨ k = .i64 ∨ k = .duration

/-- Bit width of a signed-integer kind's storage. -/
def intWidth : GoKind → Nat
  | .i8 => 8
  | .i16 => 16
  | _ => 64

/-! Concrete records, tables and filesystems used to evaluate the theorems
on closed instances. -/

/-- A settable int field tagged `cfg:"port" default:"2000"`, pre-merge 0. -/
def wPortField : GoField :=
  ⟨("Port"), ("port"), ("2000"), .iint, true, .int 0⟩

/-- A settable bool field tagged `cfg:"ssl"` with no default. -/
def wSSLField : GoField :=
  ⟨("SSL"), ("ssl"), (""), .bool, true, .bool false⟩

/-- A settable int field whose declared default does not parse. -/
def wBadDefField : GoField :=
  ⟨("Port"), ("port"), ("xx"), .iint, true, .int 0⟩

/-- A table giving `port` a value that fails integer coercion. -/
def wKVBad : List (String × String) := [(("port"), ("zzz"))]

/-- A table giving `ssl` a value that fails boolean coercion. -/
def wKVBadSSL : List (String × String) := [(("ssl"), ("zzz"))]

/-- A table giving `port` a valid integer value. -/
def wKVGood : List (String × String) := [(("port"), ("8080"))]

/-- A filesystem with two sources both defining `x`. -/
def wfsysA : String → String → OpenRes := fun _ name =>
  if name = "a.conf" then .content ("x = 1\n")
  else if name = "b.conf" then .content ("x = 2\n")
  else .notExist

/-- The two sources of `wfsysA`, in declaration order. -/
def wfilesA : List File :=
  [⟨("a.conf"), ("/etc"), true⟩, ⟨("b.conf"), ("/etc"), true⟩]

/-- A filesystem with no files at all. -/
def wfsysB : String → String → OpenRes := fun _ _ => .notExist

/-- A missing, optional source. -/
def wfileOpt : File := ⟨("m.conf"), ("/etc"), false⟩

/-- A missing, required source. -/
def wfileReq : File := ⟨("m.conf"), ("/etc"), true⟩

/-! Lemmas about trimming. -/

lemma dropWhile_first_false {α : Type} (p : α → Bool) :
    ∀ (l : List α) (c : α) (t : List α), l.dropWhile p = c :: t → p c = false := by
  intro l
  induction l with
  | nil => intro c t h; simp [List.dropWhile] at h
  | cons a l ih =>
    intro c t h
    rw [List.dropWhile_cons] at h
    by_cases hp : p a
    · simp [hp] at h
      exact ih c t h
    · simp [hp] at h
      simpa [← h.1] using hp

lemma dropWhile_dropWhile_sub {α : Type} (p q : α → Bool)
    (h : ∀ a, q a = true → p a = true) (l : List α) :
    (l.dropWhile p).dropWhile q = l.dropWhile p := by
  cases e : l.dropWhile p with
  | nil => simp
  | cons c t =>
    have hc : p c = false := dropWhile_first_false p l c t e
    have hqc : q c = false := by
      cases hq : q c
      · rfl
      · rw [h c hq] at hc; exact hc
    rw [List.dropWhile_cons, hqc]
    simp

lemma dropWhile_dropWhile_super {α : Type} (p q : α → Bool)
    (h : ∀ a, p a = true → q a = true) (l : List α) :
    (l.dropWhile p).dropWhile q = l.dropWhile q := by
  induction l with
  | nil => simp
  | cons a l ih =>
    rw [List.dropWhile_cons, List.dropWhile_cons]
    by_cases hp : p a
    · rw [h a hp, if_pos rfl, if_pos hp, ih]
    · rw [if_neg hp, List.dropWhile_cons]

lemma trimRightList_cons (c : Char) (l : List Char) :
    trimRightList (c :: l) =
      if trimRightList l = [] then (if goIsSpace c then [] else [c])
      else c :: trimRightList l := by
  have hrev : (c :: l).reverse = l.reverse ++ [c] := by simp
  by_cases h : List.dropWhile goIsSpace l.reverse = []
  · have he : trimRightList l = [] := by simp [trimRightList, h]
    rw [if_pos he]
    unfold trimRightList
    rw [hrev, List.dropWhile_append, h]
    by_cases hc : goIsSpace c
    · simp [List.dropWhile_cons, hc]
    · simp [List.dropWhile_cons, hc]
  · have he : ¬(trimRightList l = []) := by simp [trimRightList, h]
    rw [if_neg he]
    unfold trimRightList
    rw [hrev, List.dropWhile_append]
    have hne : (List.dropWhile goIsSpace l.reverse).isEmpty = false := by
      simp [List.isEmpty_iff, h]
    rw [hne]
    simp

lemma trim_comm (l : List Char) :
    trimLeftList (trimRightList l) = trimRightList (trimLeftList l) := by
  induction l with
  | nil => rfl
  | cons c l ih =>
    unfold trimLeftList at ih ⊢
    rw [List.dropWhile_cons]
    by_cases hc : goIsSpace c
    · rw [if_pos hc, ← ih]
      rw [trimRightList_cons]
      by_cases he : trimRightList l = []
      · simp [he, hc]
      · simp [he, hc, List.dropWhile_cons]
    · rw [if_neg hc]
      simp only [trimRightList_cons]
      by_cases he : trimRightList l = []
      · simp [he, hc, List.dropWhile_cons]
      · simp [he, hc, List.dropWhile_cons]

lemma crlf_subset_space :
    ∀ c : Char, (['\r', '\n'].contains c) = true → goIsSpace c = true := by
  intro c hc
  have hmem : c ∈ ['\r', '\n'] := List.elem_iff.mp hc
  have : c = '\r' ∨ c = '\n' := by simpa using hmem
  rcases this with h | h <;> subst h <;> decide

lemma trimRightChars_trimSpace (v : List Char) :
    trimRightCharsList (trimSpaceList v) ['\r', '\n'] = trimSpaceList v := by
  unfold trimRightCharsList trimSpaceList trimRightList
  rw [List.reverse_reverse]
  rw [dropWhile_dropWhile_sub goIsSpace (fun c => List.contains ['\r', '\n'] c)
    crlf_subset_space]

lemma trimSpace_trimRightChars (v : List Char) :
    trimSpaceList (trimRightCharsList v ['\r', '\n']) = trimSpaceList v := by
  have key : trimRightList (trimRightCharsList v ['\r', '\n']) = trimRightList v := by
    unfold trimRightCharsList trimRightList
    rw [List.reverse_reverse]
    rw [dropWhile_dropWhile_super (fun c => List.contains ['\r', '\n'] c) goIsSpace
      crlf_subset_space]
  calc trimSpaceList (trimRightCharsList v ['\r', '\n'])
      = trimLeftList (trimRightList (trimRightCharsList v ['\r', '\n'])) := by
        unfold trimSpaceList; rw [trim_comm]
    _ = trimLeftList (trimRightList v) := by rw [key]
    _ = trimSpaceList v := by unfold trimSpaceList; rw [trim_comm]

lemma parseLine_eq_specLineEntry (line : List Char) :
    parseLine line = specLineEntry line := by
  have hval : ∀ v : List Char,
      trimSpaceList (trimRightCharsList v ['\r', '\n']) =
        trimRightCharsList (trimSpaceList v) ['\r', '\n'] := by
    intro v
    rw [trimSpace_trimRightChars, trimRightChars_trimSpace]
  simp only [parseLine, specLineEntry, trimLeftList]
  cases e : line.dropWhile goIsSpace with
  | nil => simp
  | cons c t =>
    by_cases hc : c = '#'
    · simp [hc]
    · simp only [List.isEmpty_cons, Bool.false_eq_true, if_false, List.head?_cons,
        Option.some.injEq, hc]
      cases hsp : splitEq (c :: t) with
      | none => rfl
      | some kv =>
        cases kv with
        | mk k v => simp only [hval]

/-- C5: Line parser reference definition.  For every input byte stream the
table produced by `parse` (cfg.go:203-235) is exactly the table described
by the spec's per-line rules (strip leading whitespace; skip empty,
comment, and `'='`-free lines; split on the first `'='`; trim the key's
trailing whitespace; trim the value's surrounding whitespace and trailing
CR/LF, preserving interior whitespace and quotes; last occurrence of a
duplicate key wins). -/
theorem claim_C5 (s : String) : parse s = specTable s := by
  unfold parse specTable
  have h : (fun (m : List (String × String)) line =>
      match parseLine line with
      | some (k, v) => upsert m k v
      | none => m) =
      (fun (m : List (String × String)) line =>
      match specLineEntry line with
      | some (k, v) => upsert m k v
      | none => m) := by
    funext m line
    rw [parseLine_eq_specLineEntry]
  rw [h]

/-! Lemmas about the association-list model of Go maps. -/

lemma lookupKV_append {α : Type} (m₁ m₂ : List (String × α)) (k : String) :
    lookupKV (m₁ ++ m₂) k =
      match lookupKV m₁ k with
      | some v => some v
      | none => lookupKV m₂ k := by
  induction m₁ with
  | nil => rfl
  | cons p rest ih =>
    obtain ⟨a, b⟩ := p
    by_cases h : a = k
    · simp [lookupKV, h]
    · simp [lookupKV, h, ih]

lemma lookupKV_keyErase {α : Type} (m : List (String × α)) (k k' : String) :
    lookupKV (keyErase m k) k' = if k = k' then none else lookupKV m k' := by
  induction m with
  | nil => simp [keyErase, lookupKV]
  | cons p rest ih =>
    obtain ⟨a, b⟩ := p
    by_cases hak : a = k
    · subst hak
      rw [keyErase, if_pos rfl, ih]
      by_cases h : a = k'
      · subst h; simp [lookupKV]
      · simp [lookupKV, h]
    · rw [keyErase, if_neg hak]
      by_cases h : a = k'
      · subst h
        have : ¬(k = a) := fun hh => hak hh.symm
        simp [lookupKV, this]
      · simp [lookupKV, h, ih]

lemma lookupKV_upsert {α : Type} (m : List (String × α)) (k k' : String) (v : α) :
    lookupKV (upsert m k v) k' = if k = k' then some v else lookupKV m k' := by
  unfold upsert
  rw [lookupKV_append, lookupKV_keyErase]
  by_cases h : k = k'
  · simp [h, lookupKV]
  · simp only [h, if_false, lookupKV, if_neg h]
    cases lookupKV m k' <;> rfl

lemma lookupKV_some_mem {α : Type} (m : List (String × α)) (k : String) (v : α)
    (h : lookupKV m k = some v) : k ∈ keysOf m := by
  induction m with
  | nil => simp [lookupKV] at h
  | cons p rest ih =>
    rw [lookupKV] at h
    by_cases hk : p.1 = k
    · simp [keysOf, hk]
    · rw [if_neg hk] at h
      simp only [keysOf, List.map_cons, List.mem_cons]
      exact Or.inr (ih h)

lemma lookupKV_eq_none {α : Type} (m : List (String × α)) (k : String)
    (h : k ∉ keysOf m) : lookupKV m k = none := by
  cases e : lookupKV m k with
  | none => rfl
  | some v => exact absurd (lookupKV_some_mem m k v e) h

lemma keyErase_of_not_mem {α : Type} (m : List (String × α)) (k : String)
    (h : k ∉ keysOf m) : keyErase m k = m := by
  induction m with
  | nil => rfl
  | cons p rest ih =>
    simp only [keysOf, List.map_cons, List.mem_cons, not_or] at h
    rw [keyErase, if_neg (fun hh => h.1 hh.symm), ih h.2]

lemma upsert_of_not_mem {α : Type} (m : List (String × α)) (k : String) (v : α)
    (h : k ∉ keysOf m) : upsert m k v = m ++ [(k, v)] := by
  unfold upsert
  rw [keyErase_of_not_mem m k h]

lemma keyErase_append {α : Type} (m n : List (String × α)) (k : String) :
    keyErase (m ++ n) k = keyErase m k ++ keyErase n k := by
  induction m with
  | nil => rfl
  | cons p rest ih =>
    by_cases h : p.1 = k
    · simp [keyErase, h, ih]
    · simp [keyErase, h, ih]

lemma keyErase_sublist {α : Type} (m : List (String × α)) (k : String) :
    (keyErase m k).Sublist m := by
  induction m with
  | nil => simp [keyErase]
  | cons p rest ih =>
    by_cases h : p.1 = k
    · rw [keyErase, if_pos h]
      exact ih.cons p
    · rw [keyErase, if_neg h]
      exact ih.cons₂ p

lemma not_mem_keysOf_keyErase {α : Type} (m : List (String × α)) (k : String) :
    k ∉ keysOf (keyErase m k) := by
  induction m with
  | nil => simp [keyErase, keysOf]
  | cons p rest ih =>
    by_cases h : p.1 = k
    · rw [keyErase, if_pos h]; exact ih
    · rw [keyErase, if_neg h]
      simp only [keysOf, List.map_cons, List.mem_cons, not_or]
      exact ⟨fun hh => h hh.symm, ih⟩

lemma keysOf_upsert_nodup {α : Type} (m : List (String × α)) (k : String) (v : α)
    (h : (keysOf m).Nodup) : (keysOf (upsert m k v)).Nodup := by
  unfold upsert
  have h1 : (keysOf (keyErase m k)).Nodup := by
    have hs := (keyErase_sublist m k).map (fun p : String × α => p.1)
    exact hs.nodup (by simpa [keysOf] using h)
  have h2 : k ∉ keysOf (keyErase m k) := not_mem_keysOf_keyErase m k
  simp only [keysOf, List.map_append, List.map_cons, List.map_nil]
  rw [List.nodup_append]
  refine ⟨h1, List.nodup_singleton k, ?_⟩
  intro a ha hb
  simp only [List.mem_singleton] at hb
  subst hb
  exact h2 ha

lemma parse_foldl_keys_nodup (lines : List (List Char))
    (m : List (String × String)) (h : (keysOf m).Nodup) :
    (keysOf (lines.foldl
      (fun m line =>
        match parseLine line with
        | some (k, v) => upsert m k v
        | none => m) m)).Nodup := by
  induction lines generalizing m with
  | nil => exact h
  | cons line rest ih =>
    rw [List.foldl_cons]
    cases parseLine line with
    | none => exact ih m h
    | some kv => exact ih _ (keysOf_upsert_nodup m kv.1 kv.2 h)

lemma parse_keys_nodup (s : String) : (keysOf (parse s)).Nodup := by
  unfold parse
  exact parse_foldl_keys_nodup (scanLines s) [] (by simp [keysOf])

lemma lookupKV_foldl_upsert (t : List (String × String))
    (m : List (String × String)) (k : String) (hnd : (keysOf t).Nodup) :
    lookupKV (t.foldl (fun m p => upsert m p.1 p.2) m) k =
      match lookupKV t k with
      | some v => some v
      | none => lookupKV m k := by
  induction t generalizing m with
  | nil => rfl
  | cons p rest ih =>
    obtain ⟨a, b⟩ := p
    simp only [keysOf, List.map_cons, List.nodup_cons] at hnd
    rw [List.foldl_cons, ih _ hnd.2]
    cases e : lookupKV rest k with
    | some v =>
      have hk : a ≠ k := by
        intro hh
        exact hnd.1 (hh ▸ lookupKV_some_mem rest k v e)
      simp only [lookupKV, if_neg hk, e]
    | none =>
      rw [lookupKV_upsert]
      by_cases hk : a = k
      · simp [lookupKV, hk, e]
      · simp [lookupKV, hk, e]

/-! Lemmas about the source-folding loop of the merge orchestrator. -/

lemma getLast?_cons_or {α : Type} (a : α) (l : List α) :
    (a :: l).getLast? =
      match l.getLast? with
      | some x => some x
      | none => some a := by
  induction l with
  | nil => rfl
  | cons b t _ =>
    rw [List.getLast?_cons_cons]
    cases e : (b :: t).getLast? with
    | none =>
      rw [List.getLast?_eq_none_iff] at e
      exact absurd e (by simp)
    | some x => rfl

lemma accumKVs_lookup (fsys : String → String → OpenRes) (files : List File)
    (kvs0 T : List (String × String)) (k : String)
    (hT : accumKVs fsys files kvs0 = .ok T) :
    lookupKV T k =
      match (sourceValues fsys files k).getLast? with
      | some v => some v
      | none => lookupKV kvs0 k := by
  induction files generalizing kvs0 with
  | nil =>
    unfold accumKVs at hT
    cases hT
    rfl
  | cons f rest ih =>
    unfold accumKVs at hT
    cases hfs : fsys f.path f.name with
    | content c =>
      rw [hfs] at hT
      have step := ih _ hT
      have hmerge := lookupKV_foldl_upsert (parse c) kvs0 k (parse_keys_nodup c)
      have hsv : sourceValues fsys (f :: rest) k =
          match lookupKV (parse c) k with
          | some v => v :: sourceValues fsys rest k
          | none => sourceValues fsys rest k := by
        unfold sourceValues openTables
        rw [List.filterMap_cons]
        rw [hfs]
        cases e : lookupKV (parse c) k with
        | some v => simp [List.filterMap_cons, e]
        | none => simp [List.filterMap_cons, e]
      rw [hsv]
      cases e : lookupKV (parse c) k with
      | some v =>
        rw [step, hmerge, e]
        rw [getLast?_cons_or]
        cases e2 : (sourceValues fsys rest k).getLast? with
        | some x => rfl
        | none => rfl
      | none =>
        rw [step, hmerge, e]
    | notExist =>
      rw [hfs] at hT
      by_cases hreq : f.required
      · rw [if_pos hreq] at hT
        cases hT
      · rw [if_neg hreq] at hT
        have step := ih _ hT
        have hsv : sourceValues fsys (f :: rest) k = sourceValues fsys rest k := by
          unfold sourceValues openTables
          rw [List.filterMap_cons, hfs]
        rw [hsv, step]
    | otherErr =>
      rw [hfs] at hT
      cases hT

/-- C4: Overlay precedence.  For every ordered source list and every key
defined by at least two opened sources, the accumulated table built by the
folding loop of `MergeConfigsInto` (cfg.go:142-163) maps the key to the
value contributed by the latest-declared source that defines it. -/
theorem claim_C4 (fsys : String → String → OpenRes) (files : List File)
    (T : List (String × String)) (k : String)
    (hT : accumKVs fsys files [] = .ok T)
    (h2 : 2 ≤ (sourceValues fsys files k).length) :
    lookupKV T k = (sourceValues fsys files k).getLast? := by
  rw [accumKVs_lookup fsys files [] T k hT]
  cases e : (sourceValues fsys files k).getLast? with
  | some v => rfl
  | none =>
    rw [List.getLast?_eq_none_iff] at e
    rw [e] at h2
    simp at h2

lemma accumKVs_skip (fsys : String → String → OpenRes) (f : File)
    (hmiss : fsys f.path f.name = .notExist) (hreq : f.required = false)
    (pre post : List File) :
    ∀ kvs0, accumKVs fsys (pre ++ f :: post) kvs0 =
      accumKVs fsys (pre ++ post) kvs0 := by
  induction pre with
  | nil =>
    intro kvs0
    simp only [List.nil_append]
    conv_lhs => rw [accumKVs]
    rw [hmiss, hreq]
    simp
  | cons g rest ih =>
    intro kvs0
    simp only [List.cons_append]
    conv_lhs => rw [accumKVs]
    conv_rhs => rw [accumKVs]
    cases fsys g.path g.name with
    | content c => exact ih _
    | notExist =>
      by_cases hg : g.required
      · simp [hg]
      · simp only [hg, Bool.false_eq_true, if_false]
        exact ih _
    | otherErr => rfl

lemma accumKVs_required_missing (fsys : String → String → OpenRes) (f : File)
    (hmiss : fsys f.path f.name = .notExist) (hreq : f.required = true)
    (pre post : List File) :
    ∀ kvs0 T, accumKVs fsys pre kvs0 = .ok T →
      accumKVs fsys (pre ++ f :: post) kvs0 =
        .error (.fileNotFound f.path f.name) := by
  induction pre with
  | nil =>
    intro kvs0 T _
    simp only [List.nil_append]
    conv_lhs => rw [accumKVs]
    rw [hmiss, hreq]
    simp
  | cons g rest ih =>
    intro kvs0 T hok
    simp only [List.cons_append]
    conv_lhs => rw [accumKVs]
    rw [accumKVs] at hok
    cases hg : fsys g.path g.name with
    | content c =>
      rw [hg] at hok
      exact ih _ _ hok
    | notExist =>
      rw [hg] at hok
      by_cases hgr : g.required
      · rw [if_pos hgr] at hok
        cases hok
      · rw [if_neg hgr] at hok
        rw [if_neg hgr]
        exact ih _ _ hok
    | otherErr =>
      rw [hg] at hok
      cases hok

/-- C6: Required-source semantics.  A source whose file is missing and not
required is skipped without error, the merge continuing with the remaining
sources exactly as if the source were absent from the list; a source whose
file is missing and required makes the merge return the file-not-found
error, provided the sources before it accumulated without error
(cfg.go:142-149). -/
theorem claim_C6 :
    (∀ (fsys : String → String → OpenRes) (f : File) (pre post : List File)
      (fields : List GoField),
      fsys f.path f.name = .notExist → f.required = false →
      mergeConfigsInto fsys (pre ++ f :: post) fields =
        mergeConfigsInto fsys (pre ++ post) fields) ∧
    (∀ (fsys : String → String → OpenRes) (f : File) (pre post : List File)
      (fields : List GoField) (T : List (String × String)),
      accumKVs fsys pre [] = .ok T →
      fsys f.path f.name = .notExist → f.required = true →
      mergeConfigsInto fsys (pre ++ f :: post) fields =
        .err (.fileNotFound f.path f.name)) := by
  constructor
  · intro fsys f pre post fields hmiss hreq
    unfold mergeConfigsInto
    rw [accumKVs_skip fsys f hmiss hreq pre post []]
  · intro fsys f pre post fields T hok hmiss hreq
    unfold mergeConfigsInto
    rw [accumKVs_required_missing fsys f hmiss hreq pre post [] T hok]

/-! Lemmas characterising the field loop (`pass1`). -/

lemma consVal_ok (v : GoVal) (o : GoOut (List GoVal × List (String × DefaultEntry)))
    (vals : List GoVal) (ds' : List (String × DefaultEntry))
    (h : consVal v o = .ok (vals, ds')) :
    ∃ vs, o = .ok (vs, ds') ∧ vals = v :: vs := by
  cases o with
  | ok p =>
    obtain ⟨vs, ds''⟩ := p
    simp only [consVal] at h
    cases h
    exact ⟨vs, rfl, rfl⟩
  | err e => simp [consVal] at h
  | panic => simp [consVal] at h

lemma pass1_cons_unsettable (kv : List (String × String)) (f : GoField)
    (rest : List GoField) (i : Nat) (ds : List (String × DefaultEntry))
    (hs : f.settable = false) :
    pass1 kv (f :: rest) i ds = consVal f.init (pass1 kv rest (i + 1) ds) := by
  simp [pass1, hs]

lemma pass1_cons_excluded (kv : List (String × String)) (f : GoField)
    (rest : List GoField) (i : Nat) (ds : List (String × DefaultEntry))
    (hs : f.settable = true) (ht : f.tag = "-") :
    pass1 kv (f :: rest) i ds = consVal f.init (pass1 kv rest (i + 1) ds) := by
  simp [pass1, hs, ht]

lemma pass1_cons_nokv (kv : List (String × String)) (f : GoField)
    (rest : List GoField) (i : Nat) (ds : List (String × DefaultEntry))
    (hs : f.settable = true) (ht : ¬(f.tag = "-"))
    (hlk : lookupKV kv (resolvedKey f) = none) :
    pass1 kv (f :: rest) i ds =
      consVal f.init (pass1 kv rest (i + 1)
        (if f.defTag = "" then ds
         else upsert ds (resolvedKey f) ⟨f.defTag, i, f.kind, f.init⟩)) := by
  simp [pass1, hs, ht, hlk]

lemma pass1_cons_ok (kv : List (String × String)) (f : GoField)
    (rest : List GoField) (i : Nat) (ds : List (String × DefaultEntry))
    (v : String) (w : GoVal)
    (hs : f.settable = true) (ht : ¬(f.tag = "-"))
    (hlk : lookupKV kv (resolvedKey f) = some v)
    (hsf : setField f.kind f.init v = .ok w) :
    pass1 kv (f :: rest) i ds =
      consVal w (pass1 kv rest (i + 1)
        (keyErase
          (if f.defTag = "" then ds
           else upsert ds (resolvedKey f) ⟨f.defTag, i, f.kind, f.init⟩)
          (resolvedKey f))) := by
  simp [pass1, hs, ht, hlk, hsf]

lemma pass1_cons_err_default (kv : List (String × String)) (f : GoField)
    (rest : List GoField) (i : Nat) (ds : List (String × DefaultEntry))
    (v : String) (e : GoErr)
    (hs : f.settable = true) (ht : ¬(f.tag = "-"))
    (hlk : lookupKV kv (resolvedKey f) = some v)
    (hsf : setField f.kind f.init v = .err e) (hd : ¬(f.defTag = "")) :
    pass1 kv (f :: rest) i ds =
      consVal f.init (pass1 kv rest (i + 1)
        (upsert ds (resolvedKey f) ⟨f.defTag, i, f.kind, f.init⟩)) := by
  simp [pass1, hs, ht, hlk, hsf, hd]

lemma pass1_cons_err_nodefault (kv : List (String × String)) (f : GoField)
    (rest : List GoField) (i : Nat) (ds : List (String × DefaultEntry))
    (v : String) (e : GoErr)
    (hs : f.settable = true) (ht : ¬(f.tag = "-"))
    (hlk : lookupKV kv (resolvedKey f) = some v)
    (hsf : setField f.kind f.init v = .err e) (hd : f.defTag = "") :
    pass1 kv (f :: rest) i ds = .err (.setFieldErr (resolvedKey f) v) := by
  simp [pass1, hs, ht, hlk, hsf, hd]

lemma pass1_cons_panic (kv : List (String × String)) (f : GoField)
    (rest : List GoField) (i : Nat) (ds : List (String × DefaultEntry))
    (v : String)
    (hs : f.settable = true) (ht : ¬(f.tag = "-"))
    (hlk : lookupKV kv (resolvedKey f) = some v)
    (hsf : setField f.kind f.init v = .panic) :
    pass1 kv (f :: rest) i ds = .panic := by
  simp [pass1, hs, ht, hlk, hsf]

lemma pass1_ok_outcomes (kv : List (String × String)) :
    ∀ (fields : List GoField) (i : Nat) (ds : List (String × DefaultEntry))
      (vals : List GoVal) (ds' : List (String × DefaultEntry)),
      pass1 kv fields i ds = .ok (vals, ds') →
      vals.length = fields.length ∧
      ∀ j (hj : j < fields.length),
        ∃ w, vals[j]? = some w ∧ fieldOutcome kv fields[j] = .ok w := by
  intro fields
  induction fields with
  | nil =>
    intro i ds vals ds' h
    simp only [pass1, GoOut.ok.injEq, Prod.mk.injEq] at h
    refine ⟨by simp [← h.1], ?_⟩
    intro j hj
    simp at hj
  | cons f rest ih =>
    intro i ds vals ds' h
    by_cases hs : f.settable
    · by_cases ht : f.tag = "-"
      · rw [pass1_cons_excluded kv f rest i ds hs ht] at h
        obtain ⟨vs, hrest, hcons⟩ := consVal_ok _ _ _ _ h
        obtain ⟨hlen, hout⟩ := ih (i + 1) ds vs ds' hrest
        subst hcons
        refine ⟨by simp [hlen], ?_⟩
        intro j hj
        cases j with
        | zero =>
          refine ⟨f.init, by simp, ?_⟩
          simp [fieldOutcome, hs, ht]
        | succ j =>
          obtain ⟨w, hw1, hw2⟩ := hout j (by simpa using hj)
          exact ⟨w, by simpa using hw1, by simpa using hw2⟩
      · cases hlk : lookupKV kv (resolvedKey f) with
        | none =>
          rw [pass1_cons_nokv kv f rest i ds hs ht hlk] at h
          obtain ⟨vs, hrest, hcons⟩ := consVal_ok _ _ _ _ h
          obtain ⟨hlen, hout⟩ := ih _ _ vs ds' hrest
          subst hcons
          refine ⟨by simp [hlen], ?_⟩
          intro j hj
          cases j with
          | zero =>
            refine ⟨f.init, by simp, ?_⟩
            simp [fieldOutcome, hs, ht, hlk]
          | succ j =>
            obtain ⟨w, hw1, hw2⟩ := hout j (by simpa using hj)
            exact ⟨w, by simpa using hw1, by simpa using hw2⟩
        | some v =>
          cases hsf : setField f.kind f.init v with
          | ok w =>
            rw [pass1_cons_ok kv f rest i ds v w hs ht hlk hsf] at h
            obtain ⟨vs, hrest, hcons⟩ := consVal_ok _ _ _ _ h
            obtain ⟨hlen, hout⟩ := ih _ _ vs ds' hrest
            subst hcons
            refine ⟨by simp [hlen], ?_⟩
            intro j hj
            cases j with
            | zero =>
              refine ⟨w, by simp, ?_⟩
              simp [fieldOutcome, hs, ht, hlk, hsf]
            | succ j =>
              obtain ⟨w', hw1, hw2⟩ := hout j (by simpa using hj)
              exact ⟨w', by simpa using hw1, by simpa using hw2⟩
          | err e =>
            by_cases hd : f.defTag = ""
            · rw [pass1_cons_err_nodefault kv f rest i ds v e hs ht hlk hsf hd] at h
              cases h
            · rw [pass1_cons_err_default kv f rest i ds v e hs ht hlk hsf hd] at h
              obtain ⟨vs, hrest, hcons⟩ := consVal_ok _ _ _ _ h
              obtain ⟨hlen, hout⟩ := ih _ _ vs ds' hrest
              subst hcons
              refine ⟨by simp [hlen], ?_⟩
              intro j hj
              cases j with
              | zero =>
                refine ⟨f.init, by simp, ?_⟩
                simp [fieldOutcome, hs, ht, hlk, hsf, hd]
              | succ j =>
                obtain ⟨w, hw1, hw2⟩ := hout j (by simpa using hj)
                exact ⟨w, by simpa using hw1, by simpa using hw2⟩
          | panic =>
            rw [pass1_cons_panic kv f rest i ds v hs ht hlk hsf] at h
            cases h
    · have hs' : f.settable = false := by simpa using hs
      rw [pass1_cons_unsettable kv f rest i ds hs'] at h
      obtain ⟨vs, hrest, hcons⟩ := consVal_ok _ _ _ _ h
      obtain ⟨hlen, hout⟩ := ih (i + 1) ds vs ds' hrest
      subst hcons
      refine ⟨by simp [hlen], ?_⟩
      intro j hj
      cases j with
      | zero =>
        refine ⟨f.init, by simp, ?_⟩
        simp [fieldOutcome, hs']
      | succ j =>
        obtain ⟨w, hw1, hw2⟩ := hout j (by simpa using hj)
        exact ⟨w, by simpa using hw1, by simpa using hw2⟩

lemma isWalked_true (f : GoField) (hs : f.settable = true) (ht : ¬(f.tag = "-")) :
    isWalked f = true := by
  simp [isWalked, hs, ht]

lemma fieldPending_not_walked (kv : List (String × String)) (f : GoField)
    (h : isWalked f = false) : fieldPending kv f = false := by
  simp [fieldPending, h]

lemma fieldPending_no_default (kv : List (String × String)) (f : GoField)
    (hd : f.defTag = "") : fieldPending kv f = false := by
  simp [fieldPending, hd]

lemma fieldPending_nokv (kv : List (String × String)) (f : GoField)
    (hw : isWalked f = true) (hd : ¬(f.defTag = ""))
    (hlk : lookupKV kv (resolvedKey f) = none) : fieldPending kv f = true := by
  simp [fieldPending, hw, hd, hlk]

lemma fieldPending_kv_ok (kv : List (String × String)) (f : GoField)
    (v : String) (w : GoVal)
    (hlk : lookupKV kv (resolvedKey f) = some v)
    (hsf : setField f.kind f.init v = .ok w) : fieldPending kv f = false := by
  simp [fieldPending, hlk, hsf, GoOut.isOk]

lemma fieldPending_kv_err (kv : List (String × String)) (f : GoField)
    (v : String) (e : GoErr)
    (hw : isWalked f = true) (hd : ¬(f.defTag = ""))
    (hlk : lookupKV kv (resolvedKey f) = some v)
    (hsf : setField f.kind f.init v = .err e) : fieldPending kv f = true := by
  simp [fieldPending, hw, hd, hlk, hsf, GoOut.isOk]

lemma walkedKeys_cons_walked (f : GoField) (rest : List GoField)
    (h : isWalked f = true) :
    walkedKeys (f :: rest) = resolvedKey f :: walkedKeys rest := by
  simp [walkedKeys, List.filter_cons, h]

lemma walkedKeys_cons_not (f : GoField) (rest : List GoField)
    (h : isWalked f = false) :
    walkedKeys (f :: rest) = walkedKeys rest := by
  simp [walkedKeys, List.filter_cons, h]

lemma pendingEntries_cons (kv : List (String × String)) (f : GoField)
    (rest : List GoField) (i : Nat) :
    pendingEntries kv (f :: rest) i =
      (if fieldPending kv f then [(resolvedKey f, ⟨f.defTag, i, f.kind, f.init⟩)]
       else []) ++ pendingEntries kv rest (i + 1) := by
  simp [pendingEntries]

lemma pass1_ok_ds (kv : List (String × String)) :
    ∀ (fields : List GoField) (i : Nat) (ds : List (String × DefaultEntry))
      (vals : List GoVal) (ds' : List (String × DefaultEntry)),
      (walkedKeys fields).Nodup →
      (∀ k ∈ keysOf ds, k ∉ walkedKeys fields) →
      pass1 kv fields i ds = .ok (vals, ds') →
      ds' = ds ++ pendingEntries kv fields i := by
  intro fields
  induction fields with
  | nil =>
    intro i ds vals ds' _ _ h
    simp only [pass1, GoOut.ok.injEq, Prod.mk.injEq] at h
    simp [pendingEntries, ← h.2]
  | cons f rest ih =>
    intro i ds vals ds' hnd hdisj h
    by_cases hs : f.settable
    · by_cases ht : f.tag = "-"
      · have hw : isWalked f = false := by simp [isWalked, ht]
        rw [pass1_cons_excluded kv f rest i ds hs ht] at h
        obtain ⟨vs, hrest, _⟩ := consVal_ok _ _ _ _ h
        rw [walkedKeys_cons_not f rest hw] at hnd hdisj
        rw [pendingEntries_cons, fieldPending_not_walked kv f hw]
        simpa using ih (i + 1) ds vs ds' hnd hdisj hrest
      · have hw : isWalked f = true := isWalked_true f hs ht
        rw [walkedKeys_cons_walked f rest hw] at hnd hdisj
        have hnd' : (walkedKeys rest).Nodup := hnd.of_cons
        have hkey : resolvedKey f ∉ keysOf ds := by
          intro hmem
          exact hdisj _ hmem (List.mem_cons_self _ _)
        have hdisj' : ∀ k ∈ keysOf ds, k ∉ walkedKeys rest := by
          intro k hk hmem
          exact hdisj k hk (List.mem_cons_of_mem _ hmem)
        have hkeyrest : resolvedKey f ∉ walkedKeys rest := by
          simpa using (List.nodup_cons.mp hnd).1
        cases hlk : lookupKV kv (resolvedKey f) with
        | none =>
          rw [pass1_cons_nokv kv f rest i ds hs ht hlk] at h
          obtain ⟨vs, hrest, _⟩ := consVal_ok _ _ _ _ h
          by_cases hd : f.defTag = ""
          · rw [if_pos hd] at hrest
            rw [pendingEntries_cons, fieldPending_no_default kv f hd]
            simpa using ih (i + 1) ds vs ds' hnd' hdisj' hrest
          · rw [if_neg hd, upsert_of_not_mem ds (resolvedKey f) _ hkey] at hrest
            have hdisj1 : ∀ k ∈ keysOf (ds ++
                [(resolvedKey f, (⟨f.defTag, i, f.kind, f.init⟩ : DefaultEntry))]),
                k ∉ walkedKeys rest := by
              intro k hk
              simp only [keysOf, List.map_append, List.mem_append, List.map_cons,
                List.mem_singleton, List.map_nil] at hk
              rcases hk with hk | hk
              · exact hdisj' k hk
              · simp only [hk]
                exact hkeyrest
            have := ih (i + 1) _ vs ds' hnd' hdisj1 hrest
            rw [this, pendingEntries_cons,
              fieldPending_nokv kv f hw hd hlk]
            simp
        | some v =>
          cases hsf : setField f.kind f.init v with
          | ok w =>
            rw [pass1_cons_ok kv f rest i ds v w hs ht hlk hsf] at h
            obtain ⟨vs, hrest, _⟩ := consVal_ok _ _ _ _ h
            have hds2 : keyErase
                (if f.defTag = "" then ds
                 else upsert ds (resolvedKey f) ⟨f.defTag, i, f.kind, f.init⟩)
                (resolvedKey f) = ds := by
              by_cases hd : f.defTag = ""
              · rw [if_pos hd, keyErase_of_not_mem ds _ hkey]
              · rw [if_neg hd, upsert_of_not_mem ds _ _ hkey, keyErase_append,
                  keyErase_of_not_mem ds _ hkey, keyErase, if_pos rfl, keyErase]
                simp
            rw [hds2] at hrest
            rw [pendingEntries_cons, fieldPending_kv_ok kv f v w hlk hsf]
            simpa using ih (i + 1) ds vs ds' hnd' hdisj' hrest
          | err e =>
            by_cases hd : f.defTag = ""
            · rw [pass1_cons_err_nodefault kv f rest i ds v e hs ht hlk hsf hd] at h
              cases h
            · rw [pass1_cons_err_default kv f rest i ds v e hs ht hlk hsf hd] at h
              obtain ⟨vs, hrest, _⟩ := consVal_ok _ _ _ _ h
              rw [upsert_of_not_mem ds (resolvedKey f) _ hkey] at hrest
              have hdisj1 : ∀ k ∈ keysOf (ds ++
                  [(resolvedKey f, (⟨f.defTag, i, f.kind, f.init⟩ : DefaultEntry))]),
                  k ∉ walkedKeys rest := by
                intro k hk
                simp only [keysOf, List.map_append, List.mem_append, List.map_cons,
                  List.mem_singleton, List.map_nil] at hk
                rcases hk with hk | hk
                · exact hdisj' k hk
                · simp only [hk]
                  exact hkeyrest
              have := ih (i + 1) _ vs ds' hnd' hdisj1 hrest
              rw [this, pendingEntries_cons,
                fieldPending_kv_err kv f v e hw hd hlk hsf]
              simp
          | panic =>
            rw [pass1_cons_panic kv f rest i ds v hs ht hlk hsf] at h
            cases h
    · have hs' : f.settable = false := by simpa using hs
      have hw : isWalked f = false := by simp [isWalked, hs']
      rw [pass1_cons_unsettable kv f rest i ds hs'] at h
      obtain ⟨vs, hrest, _⟩ := consVal_ok _ _ _ _ h
      rw [walkedKeys_cons_not f rest hw] at hnd hdisj
      rw [pendingEntries_cons, fieldPending_not_walked kv f hw]
      simpa using ih (i + 1) ds vs ds' hnd hdisj hrest

/-! Lemmas characterising the defaults loop (`pass2`). -/

lemma pass2_ok_entry :
    ∀ (entries : List (String × DefaultEntry)) (vals vals' : List GoVal),
      pass2 entries vals = .ok vals' →
      ∀ e ∈ entries, ∃ w, setField e.2.kind e.2.cur e.2.value = .ok w := by
  intro entries
  induction entries with
  | nil =>
    intro vals vals' _ e he
    simp at he
  | cons p rest ih =>
    intro vals vals' h e he
    obtain ⟨k, d⟩ := p
    rw [pass2] at h
    cases hsf : setField d.kind d.cur d.value with
    | ok w =>
      rw [hsf] at h
      rcases List.mem_cons.mp he with rfl | hmem
      · exact ⟨w, hsf⟩
      · exact ih _ _ h e hmem
    | err e2 =>
      rw [hsf] at h
      cases h
    | panic =>
      rw [hsf] at h
      cases h

lemma pass2_length :
    ∀ (entries : List (String × DefaultEntry)) (vals vals' : List GoVal),
      pass2 entries vals = .ok vals' → vals'.length = vals.length := by
  intro entries
  induction entries with
  | nil =>
    intro vals vals' h
    cases h
    rfl
  | cons p rest ih =>
    intro vals vals' h
    obtain ⟨k, d⟩ := p
    rw [pass2] at h
    cases hsf : setField d.kind d.cur d.value with
    | ok w =>
      rw [hsf] at h
      have := ih _ _ h
      simpa [List.length_set] using this
    | err e2 =>
      rw [hsf] at h
      cases h
    | panic =>
      rw [hsf] at h
      cases h

lemma pass2_untouched :
    ∀ (entries : List (String × DefaultEntry)) (vals vals' : List GoVal) (j : Nat),
      pass2 entries vals = .ok vals' →
      (∀ e ∈ entries, e.2.idx ≠ j) → vals'[j]? = vals[j]? := by
  intro entries
  induction entries with
  | nil =>
    intro vals vals' j h _
    cases h
    rfl
  | cons p rest ih =>
    intro vals vals' j h huntouched
    obtain ⟨k, d⟩ := p
    rw [pass2] at h
    cases hsf : setField d.kind d.cur d.value with
    | ok w =>
      rw [hsf] at h
      have hrest : ∀ e ∈ rest, e.2.idx ≠ j := by
        intro e he
        exact huntouched e (List.mem_cons_of_mem _ he)
      have hd : d.idx ≠ j := huntouched (k, d) (List.mem_cons_self _ _)
      rw [ih _ _ j h hrest, List.getElem?_set_ne hd]
    | err e2 =>
      rw [hsf] at h
      cases h
    | panic =>
      rw [hsf] at h
      cases h

lemma pass2_entry_val :
    ∀ (entries : List (String × DefaultEntry)) (vals vals' : List GoVal),
      ((entries.map (fun e => e.2.idx)).Nodup) →
      pass2 entries vals = .ok vals' →
      ∀ e ∈ entries, e.2.idx < vals.length →
        ∃ w, setField e.2.kind e.2.cur e.2.value = .ok w ∧
          vals'[e.2.idx]? = some w := by
  intro entries
  induction entries with
  | nil =>
    intro vals vals' _ _ e he
    simp at he
  | cons p rest ih =>
    intro vals vals' hnd h e he hbound
    obtain ⟨k, d⟩ := p
    simp only [List.map_cons, List.nodup_cons] at hnd
    rw [pass2] at h
    cases hsf : setField d.kind d.cur d.value with
    | ok w =>
      rw [hsf] at h
      rcases List.mem_cons.mp he with rfl | hmem
      · refine ⟨w, hsf, ?_⟩
        have hrest : ∀ e' ∈ rest, e'.2.idx ≠ d.idx := by
          intro e' he' heq
          exact hnd.1 (heq ▸ List.mem_map_of_mem (fun e => e.2.idx) he')
        rw [pass2_untouched rest _ vals' d.idx h hrest]
        have hb : d.idx < vals.length := hbound
        simp [List.getElem?_set, hb]
      · refine ih _ _ hnd.2 h e hmem ?_
        simpa [List.length_set] using hbound
    | err e2 =>
      rw [hsf] at h
      cases h
    | panic =>
      rw [hsf] at h
      cases h

lemma pass2_all_ok :
    ∀ (entries : List (String × DefaultEntry)) (vals : List GoVal),
      (∀ e ∈ entries, (setField e.2.kind e.2.cur e.2.value).isOk = true) →
      ∃ vals', pass2 entries vals = .ok vals' := by
  intro entries
  induction entries with
  | nil =>
    intro vals _
    exact ⟨vals, rfl⟩
  | cons p rest ih =>
    intro vals hok
    obtain ⟨k, d⟩ := p
    have hh := hok (k, d) (List.mem_cons_self _ _)
    cases hsf : setField d.kind d.cur d.value with
    | ok w =>
      obtain ⟨vals', hv⟩ := ih (vals.set d.idx w)
        (fun e he => hok e (List.mem_cons_of_mem _ he))
      refine ⟨vals', ?_⟩
      rw [pass2, hsf]
      exact hv
    | err e2 =>
      rw [hsf] at hh
      simp [GoOut.isOk] at hh
    | panic =>
      rw [hsf] at hh
      simp [GoOut.isOk] at hh

/-! Lemmas about the pending-defaults entries. -/

lemma fieldPending_walked (kv : List (String × String)) (f : GoField)
    (h : fieldPending kv f = true) : isWalked f = true := by
  unfold fieldPending at h
  rw [Bool.and_eq_true, Bool.and_eq_true] at h
  exact h.1.1

lemma fieldPending_defTag (kv : List (String × String)) (f : GoField)
    (h : fieldPending kv f = true) : ¬(f.defTag = "") := by
  unfold fieldPending at h
  rw [Bool.and_eq_true, Bool.and_eq_true] at h
  simpa using h.1.2

lemma mem_walkedKeys (fields : List GoField) (j : Nat) (hj : j < fields.length)
    (hw : isWalked fields[j] = true) :
    resolvedKey fields[j] ∈ walkedKeys fields := by
  unfold walkedKeys
  exact List.mem_map_of_mem resolvedKey
    (List.mem_filter.mpr ⟨List.getElem_mem hj, hw⟩)

lemma pendingEntries_idx_ge (kv : List (String × String)) :
    ∀ (fields : List GoField) (i : Nat) (e : String × DefaultEntry),
      e ∈ pendingEntries kv fields i → i ≤ e.2.idx := by
  intro fields
  induction fields with
  | nil =>
    intro i e he
    simp [pendingEntries] at he
  | cons f rest ih =>
    intro i e he
    rw [pendingEntries_cons] at he
    rcases List.mem_append.mp he with hh | hh
    · by_cases hp : fieldPending kv f
      · rw [if_pos hp] at hh
        simp only [List.mem_singleton] at hh
        simp [hh]
      · rw [if_neg hp] at hh
        simp at hh
    · exact le_trans (Nat.le_succ i) (ih (i + 1) e hh)

lemma pendingEntries_idx_nodup (kv : List (String × String)) :
    ∀ (fields : List GoField) (i : Nat),
      ((pendingEntries kv fields i).map (fun e => e.2.idx)).Nodup := by
  intro fields
  induction fields with
  | nil =>
    intro i
    simp [pendingEntries]
  | cons f rest ih =>
    intro i
    rw [pendingEntries_cons]
    by_cases hp : fieldPending kv f
    · rw [if_pos hp]
      simp only [List.singleton_append, List.map_cons, List.nodup_cons]
      refine ⟨?_, ih (i + 1)⟩
      intro hmem
      obtain ⟨e, he, heq⟩ := List.mem_map.mp hmem
      have := pendingEntries_idx_ge kv rest (i + 1) e he
      omega
    · rw [if_neg hp]
      simpa using ih (i + 1)

lemma pendingEntries_mem (kv : List (String × String)) :
    ∀ (fields : List GoField) (i : Nat) (e : String × DefaultEntry),
      e ∈ pendingEntries kv fields i →
      ∃ j, ∃ hj : j < fields.length, fieldPending kv fields[j] = true ∧
        e = (resolvedKey fields[j],
          ⟨fields[j].defTag, i + j, fields[j].kind, fields[j].init⟩) := by
  intro fields
  induction fields with
  | nil =>
    intro i e he
    simp [pendingEntries] at he
  | cons f rest ih =>
    intro i e he
    rw [pendingEntries_cons] at he
    rcases List.mem_append.mp he with hh | hh
    · by_cases hp : fieldPending kv f
      · rw [if_pos hp] at hh
        simp only [List.mem_singleton] at hh
        exact ⟨0, by simp, by simpa using hp, by simpa using hh⟩
      · rw [if_neg hp] at hh
        simp at hh
    · obtain ⟨j, hj, hpj, hej⟩ := ih (i + 1) e hh
      refine ⟨j + 1, by simpa using hj, by simpa using hpj, ?_⟩
      simp only [List.getElem_cons_succ]
      have harith : i + (j + 1) = i + 1 + j := by omega
      rw [harith]
      exact hej

lemma pendingEntries_mem_of_pending (kv : List (String × String)) :
    ∀ (fields : List GoField) (i : Nat) (j : Nat) (hj : j < fields.length),
      fieldPending kv fields[j] = true →
      (resolvedKey fields[j],
        (⟨fields[j].defTag, i + j, fields[j].kind, fields[j].init⟩ :
          DefaultEntry)) ∈ pendingEntries kv fields i := by
  intro fields
  induction fields with
  | nil =>
    intro i j hj
    simp at hj
  | cons f rest ih =>
    intro i j hj hp
    rw [pendingEntries_cons]
    cases j with
    | zero =>
      simp only [List.getElem_cons_zero] at hp ⊢
      rw [if_pos hp]
      simp
    | succ j =>
      simp only [List.getElem_cons_succ] at hp ⊢
      refine List.mem_append.mpr (Or.inr ?_)
      have := ih (i + 1) j (by simpa using hj) hp
      have harith : i + 1 + j = i + (j + 1) := by omega
      rwa [harith] at this

lemma pendingEntries_no_idx (kv : List (String × String)) (fields : List GoField)
    (i j : Nat) (hj : j < fields.length)
    (hp : fieldPending kv fields[j] = false) :
    ∀ e ∈ pendingEntries kv fields i, e.2.idx ≠ i + j := by
  intro e he heq
  obtain ⟨j', hj', hpj', hej'⟩ := pendingEntries_mem kv fields i e he
  rw [hej'] at heq
  simp only at heq
  have : j' = j := by omega
  subst this
  rw [hpj'] at hp
  cases hp

lemma lookup_pendingEntries (kv : List (String × String)) :
    ∀ (fields : List GoField) (i : Nat) (j : Nat) (hj : j < fields.length),
      (walkedKeys fields).Nodup →
      fieldPending kv fields[j] = true →
      lookupKV (pendingEntries kv fields i) (resolvedKey fields[j]) =
        some ⟨fields[j].defTag, i + j, fields[j].kind, fields[j].init⟩ := by
  intro fields
  induction fields with
  | nil =>
    intro i j hj
    simp at hj
  | cons f rest ih =>
    intro i j hj hnd hp
    rw [pendingEntries_cons]
    cases j with
    | zero =>
      simp only [List.getElem_cons_zero] at hp ⊢
      rw [if_pos hp]
      simp [lookupKV]
    | succ j =>
      simp only [List.getElem_cons_succ] at hp ⊢
      have hjr : j < rest.length := by simpa using hj
      have hwr : isWalked rest[j] = true :=
        fieldPending_walked kv rest[j] hp
      by_cases hpf : fieldPending kv f
      · rw [if_pos hpf]
        have hwf : isWalked f = true := fieldPending_walked kv f hpf
        rw [walkedKeys_cons_walked f rest hwf] at hnd
        have hne : resolvedKey f ≠ resolvedKey rest[j] := by
          intro heq
          have : resolvedKey rest[j] ∈ walkedKeys rest :=
            mem_walkedKeys rest j hjr hwr
          rw [← heq] at this
          exact (List.nodup_cons.mp hnd).1 this
        rw [List.singleton_append, lookupKV, if_neg hne,
          ih (i + 1) j hjr (List.nodup_cons.mp hnd).2 hp]
        congr 2
        omega
      · rw [if_neg hpf, List.nil_append]
        have hnd' : (walkedKeys rest).Nodup := by
          by_cases hwf : isWalked f
          · rw [walkedKeys_cons_walked f rest hwf] at hnd
            exact (List.nodup_cons.mp hnd).2
          · rw [walkedKeys_cons_not f rest (by simpa using hwf)] at hnd
            exact hnd
        rw [ih (i + 1) j hjr hnd' hp]
        congr 2
        omega

lemma setFields_ok_parts (kv : List (String × String)) (fields : List GoField)
    (vals : List GoVal) (audit : List (String × DefaultEntry))
    (h : setFields kv fields = .ok (vals, audit)) :
    ∃ vals1, pass1 kv fields 0 [] = .ok (vals1, audit) ∧
      pass2 audit vals1 = .ok vals := by
  cases hp1 : pass1 kv fields 0 [] with
  | ok p =>
    obtain ⟨vals1, ds⟩ := p
    cases hp2 : pass2 ds vals1 with
    | ok vals'' =>
      have hset : setFields kv fields = .ok (vals'', ds) := by
        simp only [setFields, hp1, hp2]
      rw [hset] at h
      have hpair : vals'' = vals ∧ ds = audit := by
        simpa [GoOut.ok.injEq, Prod.mk.injEq] using h
      obtain ⟨h1v, h1d⟩ := hpair
      subst h1v
      subst h1d
      exact ⟨vals1, rfl, hp2⟩
    | err e =>
      have hset : setFields kv fields = .err e := by
        simp only [setFields, hp1, hp2]
      rw [hset] at h
      cases h
    | panic =>
      have hset : setFields kv fields = .panic := by
        simp only [setFields, hp1, hp2]
      rw [hset] at h
      cases h
  | err e =>
    have hset : setFields kv fields = .err e := by
      simp only [setFields, hp1]
    rw [hset] at h
    cases h
  | panic =>
    have hset : setFields kv fields = .panic := by
      simp only [setFields, hp1]
    rw [hset] at h
    cases h

lemma isWalked_parts (f : GoField) (h : isWalked f = true) :
    f.settable = true ∧ ¬(f.tag = "-") := by
  unfold isWalked at h
  rw [Bool.and_eq_true] at h
  exact ⟨h.1, by simpa using h.2⟩

lemma fieldOutcome_kv_ok (kv : List (String × String)) (f : GoField)
    (v : String) (w : GoVal) (hw : isWalked f = true)
    (hlk : lookupKV kv (resolvedKey f) = some v)
    (hsf : setField f.kind f.init v = .ok w) : fieldOutcome kv f = .ok w := by
  obtain ⟨hs, ht⟩ := isWalked_parts f hw
  simp [fieldOutcome, hs, ht, hlk, hsf]

lemma fieldOutcome_none (kv : List (String × String)) (f : GoField)
    (hw : isWalked f = true)
    (hlk : lookupKV kv (resolvedKey f) = none) :
    fieldOutcome kv f = .ok f.init := by
  obtain ⟨hs, ht⟩ := isWalked_parts f hw
  simp [fieldOutcome, hs, ht, hlk]

lemma fieldOutcome_err_default (kv : List (String × String)) (f : GoField)
    (v : String) (e : GoErr) (hw : isWalked f = true) (hd : ¬(f.defTag = ""))
    (hlk : lookupKV kv (resolvedKey f) = some v)
    (hsf : setField f.kind f.init v = .err e) :
    fieldOutcome kv f = .ok f.init := by
  obtain ⟨hs, ht⟩ := isWalked_parts f hw
  simp [fieldOutcome, hs, ht, hlk, hsf, hd]

lemma fieldOutcome_err_nodefault (kv : List (String × String)) (f : GoField)
    (v : String) (e : GoErr) (hw : isWalked f = true) (hd : f.defTag = "")
    (hlk : lookupKV kv (resolvedKey f) = some v)
    (hsf : setField f.kind f.init v = .err e) :
    fieldOutcome kv f = .err (.setFieldErr (resolvedKey f) v) := by
  obtain ⟨hs, ht⟩ := isWalked_parts f hw
  simp [fieldOutcome, hs, ht, hlk, hsf, hd]

lemma fieldOutcome_panic (kv : List (String × String)) (f : GoField)
    (v : String) (hw : isWalked f = true)
    (hlk : lookupKV kv (resolvedKey f) = some v)
    (hsf : setField f.kind f.init v = .panic) :
    fieldOutcome kv f = .panic := by
  obtain ⟨hs, ht⟩ := isWalked_parts f hw
  simp [fieldOutcome, hs, ht, hlk, hsf]

lemma fieldOutcome_empty (f : GoField) : fieldOutcome [] f = .ok f.init := by
  by_cases hs : f.settable
  · by_cases ht : f.tag = "-"
    · simp [fieldOutcome, hs, ht]
    · simp [fieldOutcome, hs, ht, lookupKV]
  · simp [fieldOutcome, hs]

lemma pass1_all_ok (kv : List (String × String)) :
    ∀ (fields : List GoField) (i : Nat) (ds : List (String × DefaultEntry)),
      (walkedKeys fields).Nodup →
      (∀ k ∈ keysOf ds, k ∉ walkedKeys fields) →
      (∀ f ∈ fields, (fieldOutcome kv f).isOk = true) →
      pass1 kv fields i ds =
        .ok (fields.map (fun f => (fieldOutcome kv f).getD f.init),
          ds ++ pendingEntries kv fields i) := by
  intro fields
  induction fields with
  | nil =>
    intro i ds _ _ _
    simp [pass1, pendingEntries]
  | cons f rest ih =>
    intro i ds hnd hdisj hall
    have hallrest : ∀ g ∈ rest, (fieldOutcome kv g).isOk = true :=
      fun g hg => hall g (List.mem_cons_of_mem _ hg)
    have hallf := hall f (List.mem_cons_self _ _)
    by_cases hs : f.settable
    · by_cases ht : f.tag = "-"
      · have hw : isWalked f = false := by simp [isWalked, ht]
        rw [walkedKeys_cons_not f rest hw] at hnd hdisj
        rw [pass1_cons_excluded kv f rest i ds hs ht,
          ih (i + 1) ds hnd hdisj hallrest]
        rw [pendingEntries_cons, fieldPending_not_walked kv f hw]
        have hout : fieldOutcome kv f = .ok f.init := by
          simp [fieldOutcome, hs, ht]
        simp [consVal, hout, GoOut.getD]
      · have hw : isWalked f = true := isWalked_true f hs ht
        rw [walkedKeys_cons_walked f rest hw] at hnd hdisj
        have hnd' : (walkedKeys rest).Nodup := hnd.of_cons
        have hkey : resolvedKey f ∉ keysOf ds := by
          intro hmem
          exact hdisj _ hmem (List.mem_cons_self _ _)
        have hdisj' : ∀ k ∈ keysOf ds, k ∉ walkedKeys rest := by
          intro k hk hmem
          exact hdisj k hk (List.mem_cons_of_mem _ hmem)
        have hkeyrest : resolvedKey f ∉ walkedKeys rest := by
          simpa using (List.nodup_cons.mp hnd).1
        cases hlk : lookupKV kv (resolvedKey f) with
        | none =>
          have hout : fieldOutcome kv f = .ok f.init :=
            fieldOutcome_none kv f hw hlk
          rw [pass1_cons_nokv kv f rest i ds hs ht hlk]
          by_cases hd : f.defTag = ""
          · rw [if_pos hd, ih (i + 1) ds hnd' hdisj' hallrest]
            rw [pendingEntries_cons, fieldPending_no_default kv f hd]
            simp [consVal, hout, GoOut.getD]
          · rw [if_neg hd, upsert_of_not_mem ds (resolvedKey f) _ hkey]
            have hdisj1 : ∀ k ∈ keysOf (ds ++
                [(resolvedKey f, (⟨f.defTag, i, f.kind, f.init⟩ : DefaultEntry))]),
                k ∉ walkedKeys rest := by
              intro k hk
              simp only [keysOf, List.map_append, List.mem_append, List.map_cons,
                List.mem_singleton, List.map_nil] at hk
              rcases hk with hk | hk
              · exact hdisj' k hk
              · simp only [hk]
                exact hkeyrest
            rw [ih (i + 1) _ hnd' hdisj1 hallrest]
            rw [pendingEntries_cons, fieldPending_nokv kv f hw hd hlk]
            simp [consVal, hout, GoOut.getD]
        | some v =>
          cases hsf : setField f.kind f.init v with
          | ok w =>
            have hout : fieldOutcome kv f = .ok w :=
              fieldOutcome_kv_ok kv f v w hw hlk hsf
            rw [pass1_cons_ok kv f rest i ds v w hs ht hlk hsf]
            have hds2 : keyErase
                (if f.defTag = "" then ds
                 else upsert ds (resolvedKey f) ⟨f.defTag, i, f.kind, f.init⟩)
                (resolvedKey f) = ds := by
              by_cases hd : f.defTag = ""
              · rw [if_pos hd, keyErase_of_not_mem ds _ hkey]
              · rw [if_neg hd, upsert_of_not_mem ds _ _ hkey, keyErase_append,
                  keyErase_of_not_mem ds _ hkey, keyErase, if_pos rfl, keyErase]
                simp
            rw [hds2, ih (i + 1) ds hnd' hdisj' hallrest]
            rw [pendingEntries_cons, fieldPending_kv_ok kv f v w hlk hsf]
            simp [consVal, hout, GoOut.getD]
          | err e =>
            by_cases hd : f.defTag = ""
            · have hout : fieldOutcome kv f =
                  .err (.setFieldErr (resolvedKey f) v) :=
                fieldOutcome_err_nodefault kv f v e hw hd hlk hsf
              rw [hout] at hallf
              simp [GoOut.isOk] at hallf
            · have hout : fieldOutcome kv f = .ok f.init :=
                fieldOutcome_err_default kv f v e hw hd hlk hsf
              rw [pass1_cons_err_default kv f rest i ds v e hs ht hlk hsf hd,
                upsert_of_not_mem ds (resolvedKey f) _ hkey]
              have hdisj1 : ∀ k ∈ keysOf (ds ++
                  [(resolvedKey f, (⟨f.defTag, i, f.kind, f.init⟩ : DefaultEntry))]),
                  k ∉ walkedKeys rest := by
                intro k hk
                simp only [keysOf, List.map_append, List.mem_append, List.map_cons,
                  List.mem_singleton, List.map_nil] at hk
                rcases hk with hk | hk
                · exact hdisj' k hk
                · simp only [hk]
                  exact hkeyrest
              rw [ih (i + 1) _ hnd' hdisj1 hallrest]
              rw [pendingEntries_cons, fieldPending_kv_err kv f v e hw hd hlk hsf]
              simp [consVal, hout, GoOut.getD]
          | panic =>
            have hout : fieldOutcome kv f = .panic :=
              fieldOutcome_panic kv f v hw hlk hsf
            rw [hout] at hallf
            simp [GoOut.isOk] at hallf
    · have hs' : f.settable = false := by simpa using hs
      have hw : isWalked f = false := by simp [isWalked, hs']
      rw [walkedKeys_cons_not f rest hw] at hnd hdisj
      rw [pass1_cons_unsettable kv f rest i ds hs',
        ih (i + 1) ds hnd hdisj hallrest]
      rw [pendingEntries_cons, fieldPending_not_walked kv f hw]
      have hout : fieldOutcome kv f = .ok f.init := by
        simp [fieldOutcome, hs']
      simp [consVal, hout, GoOut.getD]

/-- C2: Field-value invariant.  On distinct resolved keys, every walked
(settable, non-excluded) field of the target record ends an error-free
`setFields` holding either a value coerced from the accumulated table, or
its coerced declared default, or its pre-merge value - and the pre-merge
case occurs only when the field has neither a table entry under its
resolved key nor a declared default (cfg.go:237-302, cfg.go:304-372). -/
theorem claim_C2 (kv : List (String × String)) (fields : List GoField)
    (vals : List GoVal) (audit : List (String × DefaultEntry))
    (hnd : (walkedKeys fields).Nodup)
    (hok : setFields kv fields = .ok (vals, audit))
    (j : Nat) (hj : j < fields.length) (hw : isWalked fields[j] = true) :
    (∃ v w, lookupKV kv (resolvedKey fields[j]) = some v ∧
      setField fields[j].kind fields[j].init v = .ok w ∧ vals[j]? = some w) ∨
    (¬(fields[j].defTag = "") ∧ ∃ w,
      setField fields[j].kind fields[j].init fields[j].defTag = .ok w ∧
      vals[j]? = some w) ∨
    (vals[j]? = some fields[j].init ∧
      lookupKV kv (resolvedKey fields[j]) = none ∧ fields[j].defTag = "") := by
  obtain ⟨vals1, hp1, hp2⟩ := setFields_ok_parts kv fields vals audit hok
  have hds : audit = [] ++ pendingEntries kv fields 0 :=
    pass1_ok_ds kv fields 0 [] vals1 audit hnd (by simp [keysOf]) hp1
  rw [List.nil_append] at hds
  subst hds
  obtain ⟨hlen, hout⟩ := pass1_ok_outcomes kv fields 0 [] vals1 _ hp1
  obtain ⟨w1, hw1v, hw1o⟩ := hout j hj
  have hjlen : j < vals1.length := by rw [hlen]; exact hj
  by_cases hp : fieldPending kv fields[j]
  · right; left
    refine ⟨fieldPending_defTag kv fields[j] hp, ?_⟩
    have hmem := pendingEntries_mem_of_pending kv fields 0 j hj hp
    have hidxnodup := pendingEntries_idx_nodup kv fields 0
    have hbound : ((resolvedKey fields[j],
        (⟨fields[j].defTag, 0 + j, fields[j].kind, fields[j].init⟩ :
          DefaultEntry))).2.idx < vals1.length := by
      simpa using hjlen
    obtain ⟨w, hsfw, hvw⟩ :=
      pass2_entry_val _ vals1 vals hidxnodup hp2 _ hmem hbound
    exact ⟨w, by simpa using hsfw, by simpa using hvw⟩
  · have hpfalse : fieldPending kv fields[j] = false := by simpa using hp
    have huntouched : ∀ e ∈ pendingEntries kv fields 0, e.2.idx ≠ j := by
      intro e he
      have := pendingEntries_no_idx kv fields 0 j hj hpfalse e he
      simpa using this
    have hvals : vals[j]? = vals1[j]? :=
      pass2_untouched _ vals1 vals j hp2 huntouched
    rw [hw1v] at hvals
    cases hlk : lookupKV kv (resolvedKey fields[j]) with
    | some v =>
      cases hsf : setField fields[j].kind fields[j].init v with
      | ok w =>
        have := fieldOutcome_kv_ok kv fields[j] v w hw hlk hsf
        rw [this] at hw1o
        have hww : w = w1 := by
          simpa using hw1o
        left
        exact ⟨v, w1, rfl, hww ▸ hsf, hvals⟩
      | err e =>
        by_cases hd : fields[j].defTag = ""
        · have := fieldOutcome_err_nodefault kv fields[j] v e hw hd hlk hsf
          rw [this] at hw1o
          cases hw1o
        · have := fieldPending_kv_err kv fields[j] v e hw hd hlk hsf
          rw [this] at hpfalse
          cases hpfalse
      | panic =>
        have := fieldOutcome_panic kv fields[j] v hw hlk hsf
        rw [this] at hw1o
        cases hw1o
    | none =>
      have := fieldOutcome_none kv fields[j] hw hlk
      rw [this] at hw1o
      have hww : fields[j].init = w1 := by
        simpa using hw1o
      by_cases hd : fields[j].defTag = ""
      · right; right
        exact ⟨hww ▸ hvals, rfl, hd⟩
      · have := fieldPending_nokv kv fields[j] hw hd hlk
        rw [this] at hpfalse
        cases hpfalse

/-- C1: Coercion-failure policy of the merge.  (1) A walked field with a
declared default whose key is in the table with a value that fails
coercion ends a successful `setFields` holding its coerced default, and
its key is in the returned audit map with the default as recorded value.
(2) A coercion failure on a file-sourced value for a field with no
declared default prevents success: unless an earlier field's duration
slip panics first, `setFields` returns an error.  (3) A coercion failure
on a declared default that is actually applied (no table entry, or a
failing one) likewise forces an error (cfg.go:277-299). -/
theorem claim_C1 :
    (∀ (kv : List (String × String)) (fields : List GoField)
      (vals : List GoVal) (audit : List (String × DefaultEntry))
      (j : Nat) (hj : j < fields.length),
      (walkedKeys fields).Nodup →
      isWalked fields[j] = true →
      ¬(fields[j].defTag = "") →
      (∃ v, lookupKV kv (resolvedKey fields[j]) = some v ∧
        ∃ e, setField fields[j].kind fields[j].init v = .err e) →
      setFields kv fields = .ok (vals, audit) →
      (∃ w, setField fields[j].kind fields[j].init fields[j].defTag = .ok w ∧
        vals[j]? = some w) ∧
      (∃ d, lookupKV audit (resolvedKey fields[j]) = some d ∧
        d.value = fields[j].defTag)) ∧
    (∀ (kv : List (String × String)) (fields : List GoField)
      (j : Nat) (hj : j < fields.length),
      isWalked fields[j] = true →
      fields[j].defTag = "" →
      (∃ v, lookupKV kv (resolvedKey fields[j]) = some v ∧
        ∃ e, setField fields[j].kind fields[j].init v = .err e) →
      ¬(setFields kv fields = .panic) →
      ∃ e, setFields kv fields = .err e) ∧
    (∀ (kv : List (String × String)) (fields : List GoField)
      (j : Nat) (hj : j < fields.length),
      (walkedKeys fields).Nodup →
      isWalked fields[j] = true →
      ¬(fields[j].defTag = "") →
      (∃ e, setField fields[j].kind fields[j].init fields[j].defTag = .err e) →
      (lookupKV kv (resolvedKey fields[j]) = none ∨
        ∃ v, lookupKV kv (resolvedKey fields[j]) = some v ∧
          ∃ e, setField fields[j].kind fields[j].init v = .err e) →
      ¬(setFields kv fields = .panic) →
      ∃ e, setFields kv fields = .err e) := by
  refine ⟨?_, ?_, ?_⟩
  · intro kv fields vals audit j hj hnd hw hd hfail hok
    obtain ⟨v, hlk, e, hsf⟩ := hfail
    have hp : fieldPending kv fields[j] = true :=
      fieldPending_kv_err kv fields[j] v e hw hd hlk hsf
    obtain ⟨vals1, hp1, hp2⟩ := setFields_ok_parts kv fields vals audit hok
    have hds : audit = [] ++ pendingEntries kv fields 0 :=
      pass1_ok_ds kv fields 0 [] vals1 audit hnd (by simp [keysOf]) hp1
    rw [List.nil_append] at hds
    subst hds
    obtain ⟨hlen, _⟩ := pass1_ok_outcomes kv fields 0 [] vals1 _ hp1
    have hjlen : j < vals1.length := by rw [hlen]; exact hj
    constructor
    · have hmem := pendingEntries_mem_of_pending kv fields 0 j hj hp
      have hidxnodup := pendingEntries_idx_nodup kv fields 0
      have hbound : ((resolvedKey fields[j],
          (⟨fields[j].defTag, 0 + j, fields[j].kind, fields[j].init⟩ :
            DefaultEntry))).2.idx < vals1.length := by
        simpa using hjlen
      obtain ⟨w, hsfw, hvw⟩ :=
        pass2_entry_val _ vals1 vals hidxnodup hp2 _ hmem hbound
      exact ⟨w, by simpa using hsfw, by simpa using hvw⟩
    · have := lookup_pendingEntries kv fields 0 j hj hnd hp
      exact ⟨_, this, rfl⟩
  · intro kv fields j hj hw hd hfail hnp
    obtain ⟨v, hlk, e, hsf⟩ := hfail
    cases hval : setFields kv fields with
    | ok p =>
      obtain ⟨vals, audit⟩ := p
      obtain ⟨vals1, hp1, _⟩ := setFields_ok_parts kv fields vals audit hval
      obtain ⟨_, hout⟩ := pass1_ok_outcomes kv fields 0 [] vals1 _ hp1
      obtain ⟨w1, _, hw1o⟩ := hout j hj
      have := fieldOutcome_err_nodefault kv fields[j] v e hw hd hlk hsf
      rw [this] at hw1o
      cases hw1o
    | err e2 => exact ⟨e2, rfl⟩
    | panic => exact absurd hval hnp
  · intro kv fields j hj hnd hw hd hdeffail hnotset hnp
    obtain ⟨e, hdsf⟩ := hdeffail
    cases hval : setFields kv fields with
    | ok p =>
      obtain ⟨vals, audit⟩ := p
      obtain ⟨vals1, hp1, hp2⟩ := setFields_ok_parts kv fields vals audit hval
      have hds : audit = [] ++ pendingEntries kv fields 0 :=
        pass1_ok_ds kv fields 0 [] vals1 audit hnd (by simp [keysOf]) hp1
      rw [List.nil_append] at hds
      have hp : fieldPending kv fields[j] = true := by
        rcases hnotset with hlk | ⟨v, hlk, e2, hsf⟩
        · exact fieldPending_nokv kv fields[j] hw hd hlk
        · exact fieldPending_kv_err kv fields[j] v e2 hw hd hlk hsf
      have hmem := pendingEntries_mem_of_pending kv fields 0 j hj hp
      rw [← hds] at hmem
      obtain ⟨w, hsfw⟩ := pass2_ok_entry audit vals1 vals hp2 _ hmem
      simp only at hsfw
      rw [hdsf] at hsfw
      cases hsfw
    | err e2 => exact ⟨e2, rfl⟩
    | panic => exact absurd hval hnp

/-- C9: Merging with an empty source list succeeds.  With no sources the
accumulated table is empty, so `MergeConfigsInto` returns without error;
every walked field with a declared default (assuming all such defaults
coerce) ends up holding its coerced default, and the audit map contains
exactly the resolved keys of those defaulted fields
(cfg.go:139-173, cfg.go:294-299). -/
theorem claim_C9 (fsys : String → String → OpenRes) (fields : List GoField)
    (hnd : (walkedKeys fields).Nodup)
    (hdef : ∀ j (hj : j < fields.length), isWalked fields[j] = true →
      ¬(fields[j].defTag = "") →
      ∃ w, setField fields[j].kind fields[j].init fields[j].defTag = .ok w) :
    ∃ vals audit, mergeConfigsInto fsys [] fields = .ok (vals, audit) ∧
      (∀ j (hj : j < fields.length), isWalked fields[j] = true →
        ¬(fields[j].defTag = "") →
        ∃ w, setField fields[j].kind fields[j].init fields[j].defTag = .ok w ∧
          vals[j]? = some w) ∧
      (∀ k, (lookupKV audit k).isSome = true ↔
        ∃ j, ∃ hj : j < fields.length, isWalked fields[j] = true ∧
          ¬(fields[j].defTag = "") ∧ resolvedKey fields[j] = k) := by
  have hp1 : pass1 [] fields 0 [] =
      .ok (fields.map (fun f => (fieldOutcome [] f).getD f.init),
        [] ++ pendingEntries [] fields 0) :=
    pass1_all_ok [] fields 0 [] hnd (by simp [keysOf])
      (fun f _ => by rw [fieldOutcome_empty f]; rfl)
  rw [List.nil_append] at hp1
  set vals1 := fields.map (fun f => (fieldOutcome [] f).getD f.init) with hvals1
  set entries := pendingEntries [] fields 0 with hentries
  have hvals1len : vals1.length = fields.length := by
    rw [hvals1]
    simp
  have hallok : ∀ e ∈ entries, (setField e.2.kind e.2.cur e.2.value).isOk = true := by
    intro e he
    obtain ⟨j, hj, hpj, hej⟩ := pendingEntries_mem [] fields 0 e he
    have hwj := fieldPending_walked [] fields[j] hpj
    have hdj := fieldPending_defTag [] fields[j] hpj
    obtain ⟨w, hsfw⟩ := hdef j hj hwj hdj
    rw [hej]
    simp only
    rw [hsfw]
    rfl
  obtain ⟨vals, hp2⟩ := pass2_all_ok entries vals1 hallok
  have hset : setFields [] fields = .ok (vals, entries) := by
    simp only [setFields, hp1, hp2]
  have hmerge : mergeConfigsInto fsys [] fields = .ok (vals, entries) := by
    unfold mergeConfigsInto accumKVs
    exact hset
  refine ⟨vals, entries, hmerge, ?_, ?_⟩
  · intro j hj hwj hdj
    have hp : fieldPending [] fields[j] = true :=
      fieldPending_nokv [] fields[j] hwj hdj rfl
    have hmem := pendingEntries_mem_of_pending [] fields 0 j hj hp
    have hidxnodup := pendingEntries_idx_nodup [] fields 0
    have hbound : ((resolvedKey fields[j],
        (⟨fields[j].defTag, 0 + j, fields[j].kind, fields[j].init⟩ :
          DefaultEntry))).2.idx < vals1.length := by
      simp [hvals1len]
      omega
    obtain ⟨w, hsfw, hvw⟩ :=
      pass2_entry_val entries vals1 vals hidxnodup hp2 _ hmem hbound
    exact ⟨w, by simpa using hsfw, by simpa using hvw⟩
  · intro k
    constructor
    · intro hsome
      cases e : lookupKV entries k with
      | none =>
        rw [e] at hsome
        cases hsome
      | some d =>
        have hkmem := lookupKV_some_mem entries k d e
        simp only [keysOf, List.mem_map] at hkmem
        obtain ⟨p, hpmem, hpk⟩ := hkmem
        obtain ⟨j, hj, hpj, hej⟩ := pendingEntries_mem [] fields 0 p hpmem
        refine ⟨j, hj, fieldPending_walked [] fields[j] hpj,
          fieldPending_defTag [] fields[j] hpj, ?_⟩
        rw [hej] at hpk
        simpa using hpk
    · intro hex
      obtain ⟨j, hj, hwj, hdj, hkey⟩ := hex
      have hp : fieldPending [] fields[j] = true :=
        fieldPending_nokv [] fields[j] hwj hdj rfl
      have := lookup_pendingEntries [] fields 0 j hj hnd hp
      rw [hkey] at this
      rw [hentries, this]
      rfl

/-! Claims about the coercion switch and `FileSize.Unmarshal`. -/

lemma setIntField_cases (isDur : Bool) (w : Nat) (s : String) :
    (∀ d, goParseDuration s = some d →
      setIntField isDur w s = if isDur then .ok (.int d) else .panic) ∧
    (goParseDuration s = none → ∀ n, goParseInt s = .ok n →
      setIntField isDur w s = .ok (.int (wrapInt w n))) ∧
    (goParseDuration s = none → ∀ e, goParseInt s = .error e →
      setIntField isDur w s = .err e) := by
  refine ⟨?_, ?_, ?_⟩
  · intro d hd
    simp [setIntField, hd]
  · intro h0 n hn
    simp [setIntField, h0, hn]
  · intro h0 e he
    simp [setIntField, h0, he]

/-- C3 counterexample: the claim says a raw string that parses as a
duration stores the duration's tick count into any signed-integer field;
on a plain `int` field the code instead panics, because
`field.Set(reflect.ValueOf(d))` passes a `time.Duration` value that is not
assignable to `int` (cfg.go:325). -/
theorem claim_C3_counterexample :
    goParseDuration ("10m") = some 600000000000 ∧
    setField GoKind.iint (GoVal.int 0) ("10m") = GoOut.panic := by
  exact ⟨by decide, by decide⟩

/-- C3 (amended): for every signed-integer kind the raw string is first
parsed as a duration expression; on success the tick count is stored only
when the field's type is exactly `time.Duration` - for the other signed
kinds the assignment panics; when duration parsing fails, the string is
parsed as a base-10 signed integer and stored (truncated to the field's
width), and coercion fails with the integer-parse error only when both
parses fail (cfg.go:321-335). -/
theorem claim_C3_amended (k : GoKind) (hk : isSignedIntKind k) (cur : GoVal)
    (s : String) :
    (∀ d, goParseDuration s = some d →
      setField k cur s =
        if k = GoKind.duration then .ok (.int d) else .panic) ∧
    (goParseDuration s = none → ∀ n, goParseInt s = .ok n →
      setField k cur s = .ok (.int (wrapInt (intWidth k) n))) ∧
    (goParseDuration s = none → ∀ e, goParseInt s = .error e →
      setField k cur s = .err e) := by
  rcases hk with rfl | rfl | rfl | rfl | rfl
  · obtain ⟨h1, h2, h3⟩ := setIntField_cases false 8 s
    refine ⟨?_, ?_, ?_⟩
    · intro d hd
      simpa using h1 d hd
    · intro h0 n hn
      exact h2 h0 n hn
    · intro h0 e he
      exact h3 h0 e he
  · obtain ⟨h1, h2, h3⟩ := setIntField_cases false 16 s
    refine ⟨?_, ?_, ?_⟩
    · intro d hd
      simpa using h1 d hd
    · intro h0 n hn
      exact h2 h0 n hn
    · intro h0 e he
      exact h3 h0 e he
  · obtain ⟨h1, h2, h3⟩ := setIntField_cases false 64 s
    refine ⟨?_, ?_, ?_⟩
    · intro d hd
      simpa using h1 d hd
    · intro h0 n hn
      exact h2 h0 n hn
    · intro h0 e he
      exact h3 h0 e he
  · obtain ⟨h1, h2, h3⟩ := setIntField_cases false 64 s
    refine ⟨?_, ?_, ?_⟩
    · intro d hd
      simpa using h1 d hd
    · intro h0 n hn
      exact h2 h0 n hn
    · intro h0 e he
      exact h3 h0 e he
  · obtain ⟨h1, h2, h3⟩ := setIntField_cases true 64 s
    refine ⟨?_, ?_, ?_⟩
    · intro d hd
      simpa using h1 d hd
    · intro h0 n hn
      exact h2 h0 n hn
    · intro h0 e he
      exact h3 h0 e he

/-- C3 witness: at the one signed kind that is exactly `time.Duration` and
the raw string 10m, the duration path stores the tick count. -/
theorem claim_C3_witness :
    isSignedIntKind GoKind.duration ∧
    setField GoKind.duration (GoVal.int 0) ("10m") =
      GoOut.ok (GoVal.int 600000000000) := by
  refine ⟨Or.inr (Or.inr (Or.inr (Or.inr rfl))), ?_⟩
  have h := (claim_C3_amended GoKind.duration
    (Or.inr (Or.inr (Or.inr (Or.inr rfl)))) (GoVal.int 0)
    ("10m")).1 600000000000 (by decide)
  simpa using h

/-- C8 counterexample: the claim says the token yes in any capitalisation
coerces to true; the code compares only against the three exact tokens
`yes`, `YES`, `Yes`, so yEs falls through to `strconv.ParseBool` and the
coercion fails with an error (cfg.go:347). -/
theorem claim_C8_counterexample :
    setField GoKind.bool (GoVal.bool false) ("yEs") =
      GoOut.err (GoErr.parseBoolErr ("yEs")) := by
  decide

/-- C8 (amended): exactly the tokens `yes`/`YES`/`Yes` coerce to true and
`no`/`NO`/`No` coerce to false; every other token is handed to the
standard boolean-literal rule (`strconv.ParseBool`), whose verdict - value
or error - is the coercion's result (cfg.go:344-360). -/
theorem claim_C8_amended (cur : GoVal) (s : String) :
    ((s = "yes" ∨ s = "YES" ∨ s = "Yes") →
      setField GoKind.bool cur s = .ok (.bool true)) ∧
    ((s = "no" ∨ s = "NO" ∨ s = "No") →
      setField GoKind.bool cur s = .ok (.bool false)) ∧
    (¬(s = "yes" ∨ s = "YES" ∨ s = "Yes" ∨ s = "no" ∨ s = "NO" ∨ s = "No") →
      (∀ b, goParseBool s = .ok b →
        setField GoKind.bool cur s = .ok (.bool b)) ∧
      (∀ e, goParseBool s = .error e →
        setField GoKind.bool cur s = .err e)) := by
  refine ⟨?_, ?_, ?_⟩
  · intro h
    rcases h with rfl | rfl | rfl <;> rfl
  · intro h
    rcases h with rfl | rfl | rfl <;> rfl
  · intro hne
    simp only [not_or] at hne
    obtain ⟨n1, n2, n3, n4, n5, n6⟩ := hne
    constructor
    · intro b hb
      show setBoolField s = .ok (.bool b)
      simp [setBoolField, n1, n2, n3, n4, n5, n6, hb]
    · intro e he
      show setBoolField s = .err e
      simp [setBoolField, n1, n2, n3, n4, n5, n6, he]

/-- C8 witness: an exact token coerces, and a fallback literal goes
through `strconv.ParseBool`. -/
theorem claim_C8_witness :
    setField GoKind.bool (GoVal.bool false) ("Yes") =
      GoOut.ok (GoVal.bool true) ∧
    setField GoKind.bool (GoVal.bool false) ("1") =
      GoOut.ok (GoVal.bool true) := by
  constructor
  · exact (claim_C8_amended (GoVal.bool false) ("Yes")).1 (by simp)
  · exact ((claim_C8_amended (GoVal.bool false) ("1")).2.2
      (by decide)).1 true rfl

/-- C7: evaluation of `FileSize.Unmarshal` at the claim's inputs.  The two
positive cases hold (10MB is 10 x 2^20, 1024 plain bytes), but on the
empty string the body only rebinds its local pointer variable
(`fs = &size`, cfg.go:88), so a receiver holding 7 keeps 7 instead of the
claimed stored 0. -/
theorem claim_C7_bug :
    FileSize.Unmarshal 7 ("") = GoOut.ok 7 ∧
    FileSize.Unmarshal 7 ("10MB") = GoOut.ok 10485760 ∧
    FileSize.Unmarshal 7 ("1024") = GoOut.ok 1024 := by
  exact ⟨by decide, by decide, by decide⟩

/-- C10: `FileSize.Unmarshal` is not total - on the inputs b and B the
index `value[last-1]` is out of range, and on a whitespace-only input the
trimmed string is empty so `value[last]` with `last = -1` is out of range;
all three panic instead of returning an error (cfg.go:97-98). -/
theorem claim_C10_bug :
    FileSize.Unmarshal 0 ("b") = GoOut.panic ∧
    FileSize.Unmarshal 0 ("B") = GoOut.panic ∧
    FileSize.Unmarshal 0 (" ") = GoOut.panic := by
  exact ⟨by decide, by decide, by decide⟩

/-- C1 counterexample: the claim says a coercion failure on a file-sourced
value for a no-default field makes the whole merge return an error.  Here
the no-default bool field tagged b has the failing table value zzz, but
the walk panics at the earlier plain-int field tagged a whose value 5m
parses as a duration (the cfg.go:325 assignability slip), so the merge
returns no error at all. -/
theorem claim_C1_counterexample :
    setField GoKind.bool (GoVal.bool false) ("zzz") =
      GoOut.err (GoErr.parseBoolErr ("zzz")) ∧
    setFields [((("a") : String), ("5m")), ((("b") : String), ("zzz"))]
      [⟨("A"), ("a"), (""), GoKind.iint, true, GoVal.int 0⟩,
       ⟨("B"), ("b"), (""), GoKind.bool, true, GoVal.bool false⟩] =
      GoOut.panic := by
  exact ⟨by decide, by decide⟩

/-! Closed witnesses for the theorems with hypotheses. -/

/-- C1 witness: branch (1) at a field with default 2000 and the invalid
table value zzz; branch (2) at a no-default bool field with an invalid
value; branch (3) at a field whose declared default xx does not parse. -/
theorem claim_C1_witness :
    ((∃ w, setField wPortField.kind wPortField.init wPortField.defTag =
        GoOut.ok w ∧ ([GoVal.int 2000] : List GoVal)[0]? = some w) ∧
      (∃ d, lookupKV
          [((("port") : String),
            (⟨("2000"), 0, GoKind.iint, GoVal.int 0⟩ : DefaultEntry))]
          (resolvedKey wPortField) = some d ∧ d.value = wPortField.defTag)) ∧
    (∃ e, setFields wKVBadSSL [wSSLField] = GoOut.err e) ∧
    (∃ e, setFields ([] : List (String × String)) [wBadDefField] =
      GoOut.err e) := by
  refine ⟨?_, ?_, ?_⟩
  · exact claim_C1.1 wKVBad [wPortField] [GoVal.int 2000]
      [((("port") : String),
        (⟨("2000"), 0, GoKind.iint, GoVal.int 0⟩ : DefaultEntry))] 0
      (by decide) (by decide) (by decide) (by decide)
      ⟨("zzz"), rfl, GoErr.parseIntErr ("zzz"), by decide⟩ (by decide)
  · exact claim_C1.2.1 wKVBadSSL [wSSLField] 0 (by decide) (by decide) rfl
      ⟨("zzz"), rfl, GoErr.parseBoolErr ("zzz"), by decide⟩ (by decide)
  · exact claim_C1.2.2 ([] : List (String × String)) [wBadDefField] 0
      (by decide) (by decide) (by decide) (by decide)
      ⟨GoErr.parseIntErr ("xx"), by decide⟩ (Or.inl rfl) (by decide)

/-- C2 witness: the field tagged port with default 2000 and table value
8080 ends the merge holding the coerced table value. -/
theorem claim_C2_witness :
    (∃ v w, lookupKV wKVGood (resolvedKey wPortField) = some v ∧
      setField wPortField.kind wPortField.init v = GoOut.ok w ∧
      ([GoVal.int 8080] : List GoVal)[0]? = some w) ∨
    (¬(wPortField.defTag = "") ∧ ∃ w,
      setField wPortField.kind wPortField.init wPortField.defTag =
        GoOut.ok w ∧ ([GoVal.int 8080] : List GoVal)[0]? = some w) ∨
    (([GoVal.int 8080] : List GoVal)[0]? = some wPortField.init ∧
      lookupKV wKVGood (resolvedKey wPortField) = none ∧
      wPortField.defTag = "") := by
  exact claim_C2 wKVGood [wPortField] [GoVal.int 8080] [] (by decide)
    (by decide) 0 (by decide) (by decide)

/-- C4 witness: two sources both defining x; the accumulated table holds
the later source's value. -/
theorem claim_C4_witness :
    lookupKV [((("x") : String), ("2"))] ("x") =
      (sourceValues wfsysA wfilesA ("x")).getLast? := by
  exact claim_C4 wfsysA wfilesA [((("x") : String), ("2"))] ("x") rfl
    (by decide)

/-- C6 witness: a missing optional source is skipped; a missing required
source yields the file-not-found error. -/
theorem claim_C6_witness :
    mergeConfigsInto wfsysB [wfileOpt] [] = mergeConfigsInto wfsysB [] [] ∧
    mergeConfigsInto wfsysB [wfileReq] [] =
      GoOut.err (GoErr.fileNotFound wfileReq.path wfileReq.name) := by
  constructor
  · exact claim_C6.1 wfsysB wfileOpt [] [] [] rfl rfl
  · exact claim_C6.2 wfsysB wfileReq [] [] [] [] rfl rfl rfl

/-- C9 witness: merging an empty source list into a record with one
defaulted field. -/
theorem claim_C9_witness :
    ∃ vals audit,
      mergeConfigsInto wfsysB [] [wPortField] = GoOut.ok (vals, audit) ∧
      (∀ j (hj : j < ([wPortField] : List GoField).length),
        isWalked ([wPortField] : List GoField)[j] = true →
        ¬(([wPortField] : List GoField)[j].defTag = "") →
        ∃ w, setField ([wPortField] : List GoField)[j].kind
            ([wPortField] : List GoField)[j].init
            ([wPortField] : List GoField)[j].defTag = GoOut.ok w ∧
          vals[j]? = some w) ∧
      (∀ k, (lookupKV audit k).isSome = true ↔
        ∃ j, ∃ hj : j < ([wPortField] : List GoField).length,
          isWalked ([wPortField] : List GoField)[j] = true ∧
          ¬(([wPortField] : List GoField)[j].defTag = "") ∧
          resolvedKey ([wPortField] : List GoField)[j] = k) := by
  refine claim_C9 wfsysB [wPortField] (by decide) ?_
  intro j hj hw hd
  have hj0 : j = 0 := by
    simp only [List.length_singleton] at hj
    omega
  subst hj0
  exact ⟨GoVal.int 2000,
    show setField GoKind.iint (GoVal.int 0) ("2000") =
      GoOut.ok (GoVal.int 2000) by decide⟩

end Cfg
